import Mathlib

/-!
Verification development for the pattern-first agent framework
(`.ai/agents/base_agent.py`, `.ai/agents/frontend_ui.py`,
`.ai/agents/infrastructure.py`, `.ai/orchestrator.py`).

Documents are modelled as lists of characters (`Str`).  Python strings,
`str.lower`, `str.strip`, `str.split`, `str.find`, the two regular
expressions of `base_agent.py`, and the block-style subset of PyYAML
`dump`/`safe_load` actually exercised by the code are embedded as
executable Lean functions.  Real (float) arithmetic of the match scores is
modelled exactly by rationals.
-/

namespace Spec2

/-- Python strings are modelled as lists of characters. -/
abbrev Str := List Char

/-- Whitespace as recognised by Python `str.strip` / `str.split`
(restricted to space, tab, carriage return, newline). -/
def pyIsSpace (c : Char) : Bool := c.isWhitespace

/-- Lower-casing of a single character; models `str.lower` on ASCII input. -/
def asciiLower (c : Char) : Char :=
  if 'A' ≤ c ∧ c ≤ 'Z' then Char.ofNat (c.toNat + 32) else c

/-- Models Python `str.lower` (ASCII subset). -/
def pyLower (s : Str) : Str := s.map asciiLower

/-- Drop leading whitespace, as in Python `str.lstrip`. -/
def ltrim (s : Str) : Str := s.dropWhile pyIsSpace

/-- Drop trailing whitespace, as in Python `str.rstrip`. -/
def rtrim (s : Str) : Str := ((s.reverse).dropWhile pyIsSpace).reverse

/-- Models Python `str.strip`. -/
def strip (s : Str) : Str := rtrim (ltrim s)

/-- Index of the first occurrence of `pat` in the text, if any;
models Python `str.find` (returning `none` instead of `-1`). -/
def findSub? (pat : Str) : Str → Option Nat
  | [] => if pat.isPrefixOf ([] : Str) then some 0 else none
  | c :: cs => if pat.isPrefixOf (c :: cs) then some 0 else (findSub? pat cs).map (· + 1)

/-- Models the Python substring test `pat in s`. -/
def containsSub (pat s : Str) : Bool := (findSub? pat s).isSome

/-- Split a character list at every occurrence of the character `c`;
models `str.split(sep)` for a one-character separator. -/
def splitOnChar (c : Char) : Str → List Str
  | [] => [[]]
  | x :: xs =>
    match splitOnChar c xs with
    | [] => []
    | r :: rs => if x = c then [] :: r :: rs else (x :: r) :: rs

/-- Join lines with a newline between consecutive lines (no trailing newline). -/
def joinNl : List Str → Str
  | [] => []
  | [l] => l
  | l :: ls => l ++ '\n' :: joinNl ls

/-- Join lines, terminating every line with a newline. -/
def unlines (ls : List Str) : Str := ls.flatMap (fun l => l ++ ['\n'])

/-! ## YAML values

The metadata mapping of a pattern holds strings, integers and lists of
strings (`task`, `complexity`, `tags`, `dependencies`, ...).  Python
dictionaries are modelled as insertion-ordered association lists with
unique keys. -/

/-- A YAML scalar or string-list value, the value shapes the repository
stores in pattern metadata. -/
inductive YVal
  | s (v : Str)
  | i (n : Int)
  | l (items : List Str)
deriving DecidableEq

/-- Dictionary lookup (first matching key), models `dict.get`. -/
def alookup (k : Str) : List (Str × YVal) → Option YVal
  | [] => none
  | e :: es => if e.1 = k then some e.2 else alookup k es

/-- Dictionary assignment `d[k] = v`: replaces the value in place when the
key exists, otherwise appends, preserving Python dict insertion order. -/
def dictInsert (k : Str) (v : YVal) : List (Str × YVal) → List (Str × YVal)
  | [] => [(k, v)]
  | e :: es => if e.1 = k then (k, v) :: es else e :: dictInsert k v es

/-- The decimal digit characters. -/
def digitChar : Nat → Char
  | 0 => '0' | 1 => '1' | 2 => '2' | 3 => '3' | 4 => '4'
  | 5 => '5' | 6 => '6' | 7 => '7' | 8 => '8' | _ => '9'

/-- Decimal rendering of a natural number. -/
def natToStr (n : Nat) : Str :=
  if _h : n < 10 then [digitChar n]
  else natToStr (n / 10) ++ [digitChar (n % 10)]
decreasing_by exact Nat.div_lt_self (by omega) (by omega)

/-- Decimal reading of a digit string. -/
def strToNat (s : Str) : Nat := s.foldl (fun a c => a * 10 + (c.toNat - 48)) 0

/-- Decimal rendering of an integer, as Python `str`/`yaml.dump` print it. -/
def intStr (n : Int) : Str :=
  if n < 0 then '-' :: natToStr n.natAbs else natToStr n.toNat

/-- Does the string look like a (decimal) integer literal?  Models the
scalar resolution `yaml.safe_load` applies to plain scalars (restricted to
the decimal integer form). -/
def isIntLit (s : Str) : Bool :=
  match s with
  | [] => false
  | c :: t => if c = '-' then t ≠ [] && t.all Char.isDigit else (c :: t).all Char.isDigit

/-- Read an integer literal back. -/
def parseInt (s : Str) : Int :=
  match s with
  | [] => (strToNat [] : Int)
  | c :: t => if c = '-' then - (strToNat t : Int) else (strToNat (c :: t) : Int)

/-- Resolve a plain scalar the way `yaml.safe_load` does on the subset of
scalars this development models: `[]` is the empty list, decimal integers
are integers, everything else is a string. -/
def parseScalar (v : Str) : YVal :=
  if v = "[]".toList then .l []
  else if isIntLit v then .i (parseInt v) else .s v

/-- The lines `yaml.dump` (block style, `default_flow_style=False`) emits
for one mapping entry: scalars on one `key: value` line, non-empty lists
as a `key:` line followed by one `- item` line per element, the empty
list inline as `key: []`. -/
def entryLines (e : Str × YVal) : List Str :=
  match e.2 with
  | .s v => [e.1 ++ ": ".toList ++ v]
  | .i n => [e.1 ++ ": ".toList ++ intStr n]
  | .l [] => [e.1 ++ ": []".toList]
  | .l items => (e.1 ++ ":".toList) :: items.map (fun it => "- ".toList ++ it)

/-- Key-wise lexicographic comparison used by `yaml.dump(sort_keys=True)`,
the PyYAML default: Python compares strings by code point. -/
def strLe : Str → Str → Bool
  | [], _ => true
  | _ :: _, [] => false
  | a :: as_, b :: bs => if a < b then true else if b < a then false else strLe as_ bs

/-- Entry order of the dump: PyYAML sorts mapping keys by default. -/
def sortEntries (md : List (Str × YVal)) : List (Str × YVal) :=
  md.insertionSort (fun a b => strLe a.1 b.1)

/-- The lines of the YAML document `yaml.dump(md, default_flow_style=False)`. -/
def dumpLines (md : List (Str × YVal)) : List Str :=
  (sortEntries md).flatMap entryLines

/-- Models `yaml.dump(md, default_flow_style=False)` on the value shapes in
use: block-style mapping, sorted keys, one trailing newline per line. -/
def yaml_dump (md : List (Str × YVal)) : Str := unlines (dumpLines md)

/-- Split a line at its first `": "` into key and raw value, if present. -/
def splitKV (ln : Str) : Option (Str × Str) :=
  match findSub? ": ".toList ln with
  | none => none
  | some i => some (ln.take i, ln.drop (i + 2))

/-- Read the lines of a block-style YAML mapping back into an association
list; models `yaml.safe_load` on the documents `yaml_dump` emits. -/
def loadLines : List Str → List (Str × YVal)
  | [] => []
  | ln :: rest =>
    match splitKV ln with
    | some (k, v) => (k, parseScalar v) :: loadLines rest
    | none =>
      if ln ≠ [] ∧ ln.getLast? = some ':' then
        let items := rest.takeWhile (fun l => ("- ".toList).isPrefixOf l)
        (ln.dropLast, .l (items.map (fun l => l.drop 2))) :: loadLines (rest.drop items.length)
      else loadLines rest
termination_by ls => ls.length
decreasing_by
  all_goals simp only [List.length_cons, List.length_drop]
  all_goals omega

/-- Models `yaml.safe_load` on a frontmatter string (no trailing newline). -/
def yaml_load (s : Str) : List (Str × YVal) := loadLines (splitOnChar '\n' s)

/-! ## The pattern record and the codec -/

/-- The in-memory pattern record of `base_agent.py`: metadata mapping plus
the free-text sections, the code payload and its language tag.  The
Python code stores these as dict entries; the record type makes all of
them present (the data model requires them; absent dict keys default to
the empty string via `dict.get`). -/
structure Pattern where
  metadata : List (Str × YVal)
  description : Str
  code : Str
  setup : Str
  usage : Str
  notes : Str
  language : Str
deriving DecidableEq

/-- The three assignments of `format_pattern_markdown` lines 146-148:
`created`/`updated` stamped to the current time, `version` to `1.0.0`.
The two `datetime.now()` calls are modelled by one time string `now`. -/
def stampMeta (now : Str) (md : List (Str × YVal)) : List (Str × YVal) :=
  dictInsert ("version".toList) (.s ("1.0.0".toList))
    (dictInsert ("updated".toList) (.s now)
      (dictInsert ("created".toList) (.s now) md))

/-- Concatenate with a separator between elements. -/
def joinSep (sep : Str) : List Str → Str
  | [] => []
  | [x] => x
  | x :: xs => x ++ sep ++ joinSep sep xs

/-- How a Python f-string renders a metadata value (`repr` quoting for
list elements). -/
def pyStrOfVal : YVal → Str
  | .s v => v
  | .i n => intStr n
  | .l items =>
    "[".toList ++ joinSep (", ".toList) (items.map (fun it => '\x27' :: (it ++ ['\x27']))) ++ "]".toList

/-- Models `format_pattern_markdown` (lines 141-178): stamps the metadata,
dumps it as YAML frontmatter between `---` lines and fills the fixed
markdown section skeleton.  The in-place mutation of the caller's
metadata dict is modelled by also returning the updated record. -/
def format_pattern_markdown (now : Str) (p : Pattern) : Str × Pattern :=
  let md := stampMeta now p.metadata
  let fm := yaml_dump md
  let title := match alookup ("task".toList) md with
    | some v => pyStrOfVal v
    | none => "Pattern".toList
  let doc :=
    "---\n".toList ++ fm ++ "---\n\n# ".toList ++ title ++
    "\n\n## Description\n\n".toList ++ p.description ++
    "\n\n## Setup Instructions\n\n".toList ++ p.setup ++
    "\n\n## Usage\n\n".toList ++ p.usage ++
    "\n\n## Notes\n\n".toList ++ p.notes ++
    "\n\n## Code\n\n```".toList ++ p.language ++ "\n".toList ++ p.code ++ "\n```\n".toList
  (doc, { p with metadata := md })

/-- The anchored frontmatter regular expression of `parse_pattern_file`
line 232: the document must start with a `---` line; the first group is
the shortest text followed by a `\n---\n` delimiter, the second group is
everything after that delimiter. -/
def parseDoc (content : Str) : Option (Str × Str) :=
  if ("---\n".toList).isPrefixOf content then
    let rest := content.drop 4
    match findSub? ("\n---\n".toList) rest with
    | none => none
    | some i => some (rest.take i, rest.drop (i + 5))
  else none

/-- Models `extract_section` (lines 259-273): locate the start marker,
then cut until the end marker (searched from the position right after the
start marker) or to the end of the text, stripping whitespace. -/
def extract_section (text start : Str) (stop : Option Str) : Str :=
  match findSub? start text with
  | none => []
  | some i =>
    let rest := text.drop (i + start.length)
    match stop with
    | none => strip rest
    | some e =>
      match findSub? e rest with
      | none => strip rest
      | some k => strip (rest.take k)

/-- Word characters of the regex `\w` (ASCII subset). -/
def isWordChar (c : Char) : Bool := c.isAlphanum || c = '_'

/-- One attempt of the code-block regex `` ```\w*\n(.*?)\n``` `` at the
start of `t`: an opening fence, a word-character language tag, a newline,
then the shortest capture terminated by a closing fence. -/
def tryCodeAt (t : Str) : Option Str :=
  if ("```".toList).isPrefixOf t then
    let r := t.drop 3
    let lang := r.takeWhile isWordChar
    match r.drop lang.length with
    | '\n' :: r3 => (findSub? ("\n```".toList) r3).map (fun k => r3.take k)
    | _ => none
  else none

/-- `re.search` of the code-block regex: leftmost position at which the
whole pattern matches. -/
def searchCode : Str → Option Str
  | [] => none
  | c :: cs =>
    match tryCodeAt (c :: cs) with
    | some r => some r
    | none => searchCode cs

/-- Models `parse_pattern_file` (lines 227-257): split off the
frontmatter (`none` models the `{}` return on malformed input), load the
metadata, take the first fenced code block, and extract the four named
sections (note the source's marker choices: `description` runs from the
bare marker `Description` to `## Code`, `notes` to the end of the text). -/
def parse_pattern_file (content : Str) : Option Pattern :=
  match parseDoc content with
  | none => none
  | some (fm, body) =>
    let metadata := yaml_load fm
    let code := (searchCode body).getD []
    let description := extract_section body ("Description".toList) (some ("## Code".toList))
    let setup := extract_section body ("## Setup Instructions".toList) (some ("## Usage".toList))
    let usage := extract_section body ("## Usage".toList) (some ("## Notes".toList))
    let notes := extract_section body ("## Notes".toList) none
    let language := match alookup ("language".toList) metadata with
      | some (.s v) => v
      | _ => "typescript".toList
    some { metadata := metadata
           description := strip description
           code := code
           setup := strip setup
           usage := strip usage
           notes := strip notes
           language := language }

/-! ## The pattern matcher -/

/-- One pass of Python `str.split()` with no argument: split on
whitespace runs, discarding empty pieces; `acc` carries the current word
reversed. -/
def splitWsGo (acc : Str) : Str → List Str
  | [] => if acc = [] then [] else [acc.reverse]
  | c :: cs =>
    if pyIsSpace c then
      if acc = [] then splitWsGo [] cs else acc.reverse :: splitWsGo [] cs
    else splitWsGo (c :: acc) cs

/-- Models Python `str.split()` with no argument. -/
def splitWs (s : Str) : List Str := splitWsGo [] s

/-- Keep the first occurrence of every word; the length of the result is
the cardinality of the Python `set` of words. -/
def dedupKeep : List Str → List Str
  | [] => []
  | w :: ws => w :: (dedupKeep ws).filter (fun x => x ≠ w)

/-- The set of words of a string, as `set(s.split())`. -/
def wordSet (s : Str) : List Str := dedupKeep (splitWs s)

/-- Set intersection restricted to the first operand's (deduplicated)
elements; its length is `len(task_words & pattern_words)`. -/
def interWords (a b : List Str) : List Str := a.filter (fun w => w ∈ b)

/-- The match score of `find_pattern` lines 68-79: `0` without common
words, otherwise `|intersection| / max(|task_words|, |pattern_words|)`.
Python float arithmetic is modelled exactly by rationals. -/
def matchScore (tw pw : List Str) : Rat :=
  let cw := interWords tw pw
  if cw = [] then 0 else (cw.length : Rat) / ((max tw.length pw.length : Nat) : Rat)

/-- The stored task label of a candidate, case-folded: `''` when the
`task` key is absent (`dict.get` default), `none` when its value is not a
string (`.lower()` raises and the loop skips the file). -/
def candLabel (p : Pattern) : Option Str :=
  match alookup ("task".toList) p.metadata with
  | none => some []
  | some (.s v) => some (pyLower v)
  | some _ => none

/-- The candidate loop of `find_pattern` (lines 62-87) with its running
state: current best match and best score. -/
def find_go (tl : Str) (tw : List Str) : List Pattern → Option Pattern → Rat → Option Pattern
  | [], best, _ => best
  | p :: rest, best, bs =>
    match candLabel p with
    | none => find_go tl tw rest best bs
    | some pt =>
      if tl = pt then some p
      else
        let score := matchScore tw (wordSet pt)
        if bs < score ∧ (3 : Rat) / 10 < score then find_go tl tw rest (some p) score
        else find_go tl tw rest best bs

/-- Models `find_pattern` (lines 53-89) over the parsed candidate records
in enumeration order. -/
def find_pattern (task : Str) (candidates : List Pattern) : Option Pattern :=
  let tl := pyLower task
  find_go tl (wordSet tl) candidates none 0

/-! ## The validator -/

/-- The result dict of `validate_pattern`. -/
structure ValidationResult where
  valid : Bool
  errors : List Str
  warnings : List Str
deriving DecidableEq

/-- The four required metadata keys (line 102). -/
def required_metadata : List Str :=
  ["task".toList, "complexity".toList, "tags".toList, "dependencies".toList]

/-- Models `validate_pattern` (lines 96-124).  The complexity value is
read as an integer when present (`0` when absent, matching the
`.get('complexity', 0)` default; the data model requires an integer). -/
def validate_pattern (p : Pattern) : ValidationResult :=
  let missing := (required_metadata.filter (fun f => alookup f p.metadata = none)).map
      (fun f => "Missing required metadata: ".toList ++ f)
  let shortErr := if (strip p.code).length < 50 then ["Pattern code too short".toList] else []
  let todoErr := if containsSub ("TODO".toList) p.code || containsSub ("pass".toList) p.code
    then ["Pattern contains incomplete sections".toList] else []
  let complexity : Int := match alookup ("complexity".toList) p.metadata with
    | some (.i n) => n
    | _ => 0
  let warnings := if complexity > 5
    then ["Pattern complexity ".toList ++ intStr complexity ++ " exceeds recommended max 5".toList]
    else []
  let errors := missing ++ shortErr ++ todoErr
  { valid := errors = [], errors := errors, warnings := warnings }

/-! ## Agents and execution

An agent is its domain plus its `create_pattern` behaviour; the
`NotImplementedError` exceptions of the concrete agents are modelled as
`Except.error` carrying the exception message.  The filesystem side
effects are modelled by explicit state: the domain's pattern store (as
parsed records in enumeration order; the slug filename of `save_pattern`
is abstracted away) and the two append-only logs. -/

/-- One `metrics.jsonl` record (`log_metrics` lines 209-215). -/
structure MetricsRecord where
  timestamp : Str
  task : Str
  domain : Str
  pattern_reused : Bool
  patterns_total : Nat
deriving DecidableEq

/-- The mutable world an agent touches. -/
structure AgentState where
  store : List Pattern
  metricsLog : List MetricsRecord
  errorLog : List Str
deriving DecidableEq

/-- A domain agent: `PatternFirstAgent` with its abstract `create_pattern`. -/
structure Agent where
  domain : Str
  create_pattern : Str → Except Str Pattern

/-- `self.patterns_dir` of `PatternFirstAgent.__init__`. -/
def patternsDir (a : Agent) : Str := ".ai/patterns/".toList ++ a.domain

/-- Models `log_metrics` (lines 207-219): append one record; the pattern
count is the store size at call time. -/
def log_metrics (a : Agent) (now task : Str) (pattern_reused : Bool) (st : AgentState) : AgentState :=
  { st with metricsLog := st.metricsLog ++
      [{ timestamp := now, task := task, domain := a.domain,
         pattern_reused := pattern_reused, patterns_total := st.store.length }] }

/-- Models `log_error` (lines 221-225): append one `timestamp - message` line. -/
def log_error (now msg : Str) (st : AgentState) : AgentState :=
  { st with errorLog := st.errorLog ++ [now ++ " - ".toList ++ msg] }

/-- The formatted response text of `handle_error` (lines 193-205). -/
def errorResponse (a : Agent) (error_message : Str) : Str :=
  "\n## Error Encountered\n\n".toList ++ error_message ++
  ("\n\n### Troubleshooting Steps:\n" ++
   "1. Check that the philosophy.md file exists\n" ++
   "2. Verify the pattern directory structure\n" ++
   "3. Try creating the pattern manually first\n\n" ++
   "### Fallback Action:\n" ++
   "You can create the pattern manually in: ").toList ++
  patternsDir a ++ "\n".toList

/-- Models `handle_error` (lines 186-205): build the error message, log
it, and return the formatted troubleshooting response. -/
def handle_error (a : Agent) (now : Str) (errStr task : Str) (st : AgentState) : Str × AgentState :=
  let error_message := "Error processing task \x27".toList ++ task ++ "\x27: ".toList ++ errStr
  (errorResponse a error_message, log_error now error_message st)

/-- Python `repr` of a list of strings, as an f-string renders it. -/
def pyReprStrList (xs : List Str) : Str :=
  "[".toList ++ joinSep (", ".toList) (xs.map (fun x => '\x27' :: (x ++ ['\x27']))) ++ "]".toList

/-- Models `save_pattern` persistence: the new record becomes one more
stored pattern (the derived slug filename is not needed by any claim). -/
def save_pattern (p : Pattern) (st : AgentState) : AgentState :=
  { st with store := st.store ++ [p] }

/-- Models `generate_from_pattern` (lines 180-184): the pattern's code verbatim. -/
def generate_from_pattern (p : Pattern) (_task : Str) : Str := p.code

/-- Models `execute` (lines 20-51): find, else create-validate-save, then
generate and log metrics; any raised exception is converted by
`handle_error` into a formatted response plus one error-log line.  Note
that the `log_metrics` call sits inside the `try` block after pattern
creation, so the exception paths skip it. -/
def execute (a : Agent) (now : Str) (st : AgentState) (task : Str) : Str × AgentState :=
  match find_pattern task st.store with
  | some p => (generate_from_pattern p task, log_metrics a now task true st)
  | none =>
    match a.create_pattern task with
    | .error msg => handle_error a now msg task st
    | .ok p =>
      let v := validate_pattern p
      if v.valid then
        let st1 := save_pattern p st
        (generate_from_pattern p task, log_metrics a now task true st1)
      else
        handle_error a now ("Pattern validation failed: ".toList ++ pyReprStrList v.errors) task st

/-- The condition under which `execute` lands in its `except` handler:
no stored pattern matches and either `create_pattern` raises (as both
concrete agents always do) or the freshly created pattern fails
validation.  On exactly these runs `handle_error` is reached and the
`log_metrics` call inside the `try` block is skipped. -/
def executionFails (a : Agent) (st : AgentState) (task : Str) : Bool :=
  match find_pattern task st.store with
  | some _ => false
  | none =>
    match a.create_pattern task with
    | .error _ => true
    | .ok p => !(validate_pattern p).valid

/-- The `NotImplementedError` message of `FrontendUIAgent.create_pattern`
(the third line of the source literal is not an f-string, so its braces
are literal). -/
def frontend_create_msg (task : Str) : Str :=
  "Frontend UI agent cannot create patterns inline for: ".toList ++ task ++
  ("\nPatterns must be created separately and added to .ai/patterns/frontend/\n" ++
   "Use: python3 .ai/orchestrator.py create \x27\x7btask\x7d\x27 to create a pattern manually").toList

/-- `FrontendUIAgent`: domain `frontend`, refuses inline creation. -/
def frontendAgent : Agent :=
  { domain := "frontend".toList, create_pattern := fun t => .error (frontend_create_msg t) }

/-- The `NotImplementedError` message of `InfrastructureAgent.create_pattern`. -/
def infrastructure_create_msg (task : Str) : Str :=
  "Infrastructure agent cannot create patterns inline for: ".toList ++ task ++
  ("\nPatterns must be created separately and added to .ai/patterns/infrastructure/\n" ++
   "Use: python3 .ai/orchestrator.py create \x27\x7btask\x7d\x27 to create a pattern manually").toList

/-- `InfrastructureAgent`: domain `infrastructure`, refuses inline creation. -/
def infrastructureAgent : Agent :=
  { domain := "infrastructure".toList, create_pattern := fun t => .error (infrastructure_create_msg t) }

/-! ## The orchestrator's domain dispatch -/

/-- Keywords of the `infrastructure` entry of `Orchestrator.determine_agent`
(lines 32-35). -/
def infrastructure_keywords : List Str :=
  ["setup".toList, "install".toList, "deploy".toList, "config".toList, "build".toList,
   "nextjs".toList, "next.js".toList, "project".toList]

/-- Keywords of the `frontend_ui` entry. -/
def frontend_ui_keywords : List Str :=
  ["component".toList, "ui".toList, "button".toList, "form".toList, "layout".toList,
   "page".toList, "homepage".toList, "navigation".toList]

/-- The keyword table in dict insertion order. -/
def agent_keywords : List (Str × List Str) :=
  [("infrastructure".toList, infrastructure_keywords),
   ("frontend_ui".toList, frontend_ui_keywords)]

/-- Models `determine_agent` (lines 27-42): first domain (in table order)
with a keyword occurring as a substring of the lower-cased task;
`frontend_ui` when none matches. -/
def determine_agent (task : Str) : Str :=
  let tl := pyLower task
  match agent_keywords.find? (fun e => e.2.any (fun k => containsSub k tl)) with
  | some e => e.1
  | none => "frontend_ui".toList

/-! ## Specification-side definitions and well-formedness -/

/-- The score formula exactly as the spec words it:
`|intersection| / max(|task_words|, |pattern_words|)` — to be compared
with `matchScore`, the formula translated from the source. -/
def spec_score_formula (tw pw : List Str) : Rat :=
  ((interWords tw pw).length : Rat) / ((max tw.length pw.length : Nat) : Rat)

/-- A metadata key that survives the YAML round trip: non-empty and free
of newlines, colons and spaces.  Every key the repository uses
(`task`, `complexity`, `tags`, `dependencies`, `tech_stack`,
`manual_steps`, `language`, `created`, `updated`, `version`) is of this
shape. -/
def WFKey (k : Str) : Prop := k ≠ [] ∧ '\n' ∉ k ∧ ':' ∉ k ∧ ' ' ∉ k

/-- A metadata value inside the plain-scalar subset of YAML this
development models: strings are newline-free, non-empty and do not
collide with the integer or empty-list syntax; list items are non-empty
and newline-free. -/
def WFVal : YVal → Prop
  | .s v => v ≠ [] ∧ '\n' ∉ v ∧ isIntLit v = false ∧ v ≠ "[]".toList
  | .i _ => True
  | .l items => ∀ it ∈ items, it ≠ [] ∧ '\n' ∉ it

instance : DecidablePred WFVal := fun v =>
  match v with
  | .s _ => (inferInstance : Decidable (_ ∧ _ ∧ _ ∧ _))
  | .i _ => (inferInstance : Decidable True)
  | .l _ => (inferInstance : Decidable (∀ _ ∈ _, _ ∧ _))

/-- A well-formed metadata mapping: unique keys, all entries well formed. -/
def WFMeta (md : List (Str × YVal)) : Prop :=
  (md.map Prod.fst).Nodup ∧ ∀ e ∈ md, WFKey e.1 ∧ WFVal e.2

/-- The backtick character. -/
def bq : Char := Char.ofNat 96

/-- The document title `format_pattern_markdown` interpolates:
`metadata.get('task', 'Pattern')` rendered by the f-string. -/
def docTitle (md : List (Str × YVal)) : Str :=
  match alookup ("task".toList) md with
  | some v => pyStrOfVal v
  | none => "Pattern".toList

/-- The markdown body `format_pattern_markdown` emits after the
frontmatter block (title, four sections, fenced code). -/
def docBody (title D S U N L C : Str) : Str :=
  "\n# ".toList ++ title ++ "\n\n## Description\n\n".toList ++ D ++
  "\n\n## Setup Instructions\n\n".toList ++ S ++ "\n\n## Usage\n\n".toList ++ U ++
  "\n\n## Notes\n\n".toList ++ N ++ "\n\n## Code\n\n```".toList ++ L ++ "\n".toList ++ C ++
  "\n```\n".toList

/-- Glue a list of segments, each terminated by one newline, in front of
a tail — the shape of the text preceding a section marker. -/
def preGlue (pre : List Str) (tail : Str) : Str :=
  pre.foldr (fun s acc => s ++ '\n' :: acc) tail

instance (k : Str) : Decidable (WFKey k) := by
  unfold WFKey
  infer_instance

instance (md : List (Str × YVal)) : Decidable (WFMeta md) := by
  unfold WFMeta
  infer_instance

/-! ## Concrete fixtures used by the claim checks -/

/-- A candidate record carrying only a stored task label and a code body. -/
def mkCand (label code : String) : Pattern :=
  { metadata := [("task".toList, .s label.toList)]
    description := []
    code := code.toList
    setup := []
    usage := []
    notes := []
    language := [] }

/-- A candidate whose metadata lacks the `task` key: its label defaults
to the empty string. -/
def labelless (code : String) : Pattern :=
  { metadata := []
    description := []
    code := code.toList
    setup := []
    usage := []
    notes := []
    language := [] }

/-- A 20-word task, for scores with denominator 20. -/
def task20 : Str := ("a b c d e f g h i j k l m n o p q r s t").toList

/-- Candidates scoring 1/4, 7/20 and 1/2 against `task20`. -/
def cand25 : Pattern := mkCand ("a b c d e") ("CODE25")

def cand35 : Pattern := mkCand ("a b c d e f g") ("CODE35")

def cand50 : Pattern := mkCand ("a b c d e f g h i j") ("CODE50")

/-- Two candidates tied at score 1/2 against `task20`. -/
def tie1 : Pattern := mkCand ("a b c d e f g h i j") ("TIE1")

def tie2 : Pattern := mkCand ("a b c d e f g h i j") ("TIE2")

/-- A syntactically plausible 60-character code body. -/
def code60 : Str := ("let x = 1; console.log(x); export default x; one two thre").toList

/-- A pattern lacking only the `dependencies` key. -/
def patNoDeps : Pattern :=
  { metadata := [("task".toList, .s ("t".toList)), ("complexity".toList, .i 1),
      ("tags".toList, .l [])]
    description := []
    code := code60
    setup := []
    usage := []
    notes := []
    language := [] }

/-- A fully keyed pattern whose trimmed code has exactly 40 characters. -/
def pat40 : Pattern :=
  { metadata := [("task".toList, .s ("t".toList)), ("complexity".toList, .i 1),
      ("tags".toList, .l []), ("dependencies".toList, .l [])]
    description := []
    code := ("let y = 2; console.log(y); export f once").toList
    setup := []
    usage := []
    notes := []
    language := [] }

/-- A valid pattern with complexity 7. -/
def patCx7 : Pattern :=
  { metadata := [("task".toList, .s ("t".toList)), ("complexity".toList, .i 7),
      ("tags".toList, .l []), ("dependencies".toList, .l [])]
    description := []
    code := code60
    setup := []
    usage := []
    notes := []
    language := [] }

/-- A well-formed pattern record with all four required metadata keys,
used to evaluate the codec round trip concretely. -/
def cexPattern : Pattern :=
  { metadata := [("task".toList, .s ("make widget".toList)),
      ("complexity".toList, .s ("mid".toList)),
      ("tags".toList, .l [("auth".toList), ("form".toList)]),
      ("dependencies".toList, .l [])]
    description := ("DESC".toList)
    code := code60
    setup := ("SETUP".toList)
    usage := ("USAGE".toList)
    notes := ("NOTES".toList)
    language := ("typescript".toList) }

/-- The empty agent world: no stored patterns, empty logs. -/
def emptyState : AgentState :=
  { store := [], metricsLog := [], errorLog := [] }

/-! ## Lemmas about substring search -/

theorem findSub?_eq_none_iff {pat t : Str} : findSub? pat t = none ↔ ¬ pat <:+: t := by
  induction t with
  | nil =>
    by_cases h : pat = []
    · subst h; simp [findSub?]
    · simp [findSub?, List.isPrefixOf_iff_prefix, List.prefix_nil, List.infix_nil, h]
  | cons c cs ih =>
    by_cases h : pat <+: c :: cs
    · simp [findSub?, List.isPrefixOf_iff_prefix, h, List.infix_cons_iff]
    · simp [findSub?, List.isPrefixOf_iff_prefix, h, List.infix_cons_iff, ih,
        Option.map_eq_none']

theorem findSub?_of_pre {pat t : Str} (h : pat <+: t) : findSub? pat t = some 0 := by
  cases t with
  | nil => rw [List.prefix_nil.1 h]; simp [findSub?]
  | cons c cs => simp [findSub?, List.isPrefixOf_iff_prefix, h]

theorem findSub?_cons_of_not_pre {pat : Str} {c : Char} {cs : Str} (h : ¬ pat <+: c :: cs) :
    findSub? pat (c :: cs) = (findSub? pat cs).map (· + 1) := by
  simp [findSub?, List.isPrefixOf_iff_prefix, h]

theorem not_infix_of_mem_notMem {pat s : Str} {c : Char} (h1 : c ∈ pat) (h2 : c ∉ s) :
    ¬ pat <:+: s :=
  fun hi => h2 (hi.sublist.subset h1)

theorem not_infix_of_count_lt {pat s : Str} {c : Char} (h : s.count c < pat.count c) :
    ¬ pat <:+: s :=
  fun hi => absurd (hi.sublist.count_le c) (by omega)

/-- A pattern whose head character does not occur in `A` cannot start
inside `A`: searching `A ++ B` finds it shifted from its place in `B`. -/
theorem findSub?_append_of_head_notMem {p0 : Char} {pr A B : Str} (hA : p0 ∉ A) :
    findSub? (p0 :: pr) (A ++ B) = (findSub? (p0 :: pr) B).map (· + A.length) := by
  induction A with
  | nil => cases h : findSub? (p0 :: pr) B <;> simp [h]
  | cons a A ih =>
    have hne : ¬ (p0 :: pr) <+: a :: (A ++ B) := by
      intro hp
      obtain ⟨t, ht⟩ := hp
      rw [List.cons_append] at ht
      injection ht with h1 _
      exact hA (h1 ▸ List.mem_cons_self a _)
    rw [List.cons_append, findSub?_cons_of_not_pre hne,
      ih (fun hm => hA (List.mem_cons_of_mem _ hm))]
    cases findSub? (p0 :: pr) B <;> simp [List.length_cons] <;> omega

/-- A pattern avoiding the character `c` that is a prefix of `A ++ c :: B`
is already a prefix of `A`. -/
theorem prefix_of_prefix_append_cons {pat A B : Str} {c : Char} (hc : c ∉ pat)
    (h : pat <+: A ++ c :: B) : pat <+: A := by
  induction A generalizing pat with
  | nil =>
    cases pat with
    | nil => exact List.nil_prefix
    | cons p ps =>
      exfalso
      obtain ⟨t, ht⟩ := h
      rw [List.nil_append, List.cons_append] at ht
      injection ht with h1 _
      exact hc (h1 ▸ List.mem_cons_self p _)
  | cons a A ih =>
    cases pat with
    | nil => exact List.nil_prefix
    | cons p ps =>
      obtain ⟨t, ht⟩ := h
      rw [List.cons_append, List.cons_append] at ht
      injection ht with h1 h2
      subst h1
      have hps : ps <+: A := ih (fun hm => hc (List.mem_cons_of_mem _ hm)) ⟨t, h2⟩
      exact List.cons_prefix_cons.2 ⟨rfl, hps⟩

/-- Occurrences of a pattern avoiding `c` in `A ++ c :: B` lie entirely in
`A` or entirely in `B`. -/
theorem infix_append_cons_iff {pat A B : Str} {c : Char} (hc : c ∉ pat) :
    pat <:+: A ++ c :: B ↔ pat <:+: A ∨ pat <:+: B := by
  constructor
  · intro h
    induction A with
    | nil =>
      rw [List.nil_append] at h
      rcases List.infix_cons_iff.1 h with hp | hi
      · cases pat with
        | nil => exact Or.inl (List.nil_infix)
        | cons p ps =>
          exfalso
          obtain ⟨t, ht⟩ := hp
          injection ht with h1 _
          exact hc (h1 ▸ List.mem_cons_self p _)
      · exact Or.inr hi
    | cons a A ih =>
      rw [List.cons_append] at h
      rcases List.infix_cons_iff.1 h with hp | hi
      · rw [← List.cons_append] at hp
        exact Or.inl (prefix_of_prefix_append_cons hc hp).isInfix
      · rcases ih hi with h1 | h1
        · exact Or.inl (h1.trans (⟨[a], [], by simp⟩ : A <:+: a :: A))
        · exact Or.inr h1
  · rintro (h | h)
    · exact h.trans ⟨[], c :: B, by simp⟩
    · exact h.trans ⟨A ++ [c], [], by simp⟩

/-- First-occurrence computation across a separator character: if the
pattern avoids `c` and does not occur in `A`, searching `A ++ c :: B`
reduces to searching `B`. -/
theorem findSub?_append_cons {pat A B : Str} {c : Char} (hc : c ∉ pat) (hA : ¬ pat <:+: A) :
    findSub? pat (A ++ c :: B) = (findSub? pat B).map (· + (A.length + 1)) := by
  have hne : pat ≠ [] := by rintro rfl; exact hA (List.nil_infix)
  induction A with
  | nil =>
    rw [List.nil_append]
    have hnp : ¬ pat <+: c :: B := by
      intro hp
      cases pat with
      | nil => exact hne rfl
      | cons p ps =>
        obtain ⟨t, ht⟩ := hp
        injection ht with h1 _
        exact hc (h1 ▸ List.mem_cons_self p _)
    rw [findSub?_cons_of_not_pre hnp]
    cases findSub? pat B <;> simp
  | cons a A ih =>
    have hnp : ¬ pat <+: (a :: A) ++ c :: B := fun hp =>
      hA (prefix_of_prefix_append_cons hc hp).isInfix
    rw [List.cons_append] at hnp ⊢
    rw [findSub?_cons_of_not_pre hnp,
      ih (fun hi => hA (hi.trans (⟨[a], [], by simp⟩ : A <:+: a :: A)))]
    cases findSub? pat B <;> simp [List.length_cons] <;> omega

/-! ## Lemmas about trimming -/

theorem dropWhile_eq_self_of_length_eq {α : Type} {p : α → Bool} {l : List α}
    (h : (l.dropWhile p).length = l.length) : l.dropWhile p = l := by
  induction l with
  | nil => rfl
  | cons c cs ih =>
    by_cases hc : p c
    · exfalso
      rw [List.dropWhile_cons_of_pos hc] at h
      have := (List.dropWhile_sublist (p := p) (l := cs)).length_le
      simp [List.length_cons] at h
      omega
    · rw [List.dropWhile_cons_of_neg hc]

theorem ltrim_rtrim_of_strip_eq {S : Str} (h : strip S = S) : ltrim S = S ∧ rtrim S = S := by
  have h1 : (ltrim S).length ≤ S.length :=
    (List.dropWhile_sublist (p := pyIsSpace) (l := S)).length_le
  have h2 : (rtrim (ltrim S)).length ≤ (ltrim S).length := by
    unfold rtrim
    have := (List.dropWhile_sublist (p := pyIsSpace) (l := (ltrim S).reverse)).length_le
    simpa using this
  have hlen : (strip S).length = S.length := by rw [h]
  rw [strip] at hlen
  have hle : (ltrim S).length = S.length := by omega
  have hl : ltrim S = S := dropWhile_eq_self_of_length_eq hle
  refine ⟨hl, ?_⟩
  rw [strip, hl] at h
  exact h

theorem head_not_ws_of_ltrim_eq_self {c : Char} {cs : Str} (h : ltrim (c :: cs) = c :: cs) :
    pyIsSpace c = false := by
  by_contra hws
  rw [Bool.not_eq_false] at hws
  rw [ltrim, List.dropWhile_cons_of_pos hws] at h
  have := (List.dropWhile_sublist (p := pyIsSpace) (l := cs)).length_le
  have := congrArg List.length h
  simp [List.length_cons] at this
  omega

theorem rtrim_concat_ws {l : Str} {c : Char} (h : pyIsSpace c = true) :
    rtrim (l ++ [c]) = rtrim l := by
  unfold rtrim
  rw [List.reverse_append, List.reverse_singleton, List.singleton_append,
    List.dropWhile_cons_of_pos h]

/-- Stripping the `\n\n` padding the serializer places around a section
recovers the section, provided the section is already stripped. -/
theorem strip_pad {S : Str} (h : strip S = S) :
    strip ('\n' :: '\n' :: (S ++ ['\n', '\n'])) = S := by
  obtain ⟨hl, hr⟩ := ltrim_rtrim_of_strip_eq h
  have hnl : pyIsSpace '\n' = true := by decide
  cases S with
  | nil => decide
  | cons c cs =>
    have hc := head_not_ws_of_ltrim_eq_self hl
    have hcc : ¬ pyIsSpace c = true := by simp [hc]
    have e1 : ltrim ('\n' :: '\n' :: (c :: cs ++ ['\n', '\n'])) = c :: cs ++ ['\n', '\n'] := by
      rw [ltrim, List.dropWhile_cons_of_pos hnl, List.dropWhile_cons_of_pos hnl,
        List.cons_append, List.dropWhile_cons_of_neg hcc, ← List.cons_append]
    rw [strip, e1]
    have e2 : (c :: cs) ++ ['\n', '\n'] = ((c :: cs) ++ ['\n']) ++ ['\n'] := by simp
    rw [e2, rtrim_concat_ws hnl, rtrim_concat_ws hnl, hr]

/-! ## Lemmas about lines -/

theorem splitOnChar_ne_nil {c : Char} {l : Str} : splitOnChar c l ≠ [] := by
  induction l with
  | nil => simp [splitOnChar]
  | cons x xs ih =>
    rw [splitOnChar]
    rcases h : splitOnChar c xs with _ | ⟨r, rs⟩
    · exact absurd h ih
    · by_cases hx : x = c <;> simp [hx]

theorem splitOnChar_of_notMem {c : Char} {l : Str} (h : c ∉ l) : splitOnChar c l = [l] := by
  induction l with
  | nil => rfl
  | cons x xs ih =>
    rw [splitOnChar, ih (fun hm => h (List.mem_cons_of_mem _ hm))]
    have hx : x ≠ c := fun he => h (he ▸ List.mem_cons_self x xs)
    simp [hx]

theorem splitOnChar_append_cons {c : Char} {x R : Str} (h : c ∉ x) :
    splitOnChar c (x ++ c :: R) = x :: splitOnChar c R := by
  induction x with
  | nil =>
    rw [List.nil_append, splitOnChar]
    rcases hR : splitOnChar c R with _ | ⟨r, rs⟩
    · exact absurd hR splitOnChar_ne_nil
    · simp
  | cons a x ih =>
    have ha : a ≠ c := fun he => h (he ▸ List.mem_cons_self a x)
    rw [List.cons_append, splitOnChar, ih (fun hm => h (List.mem_cons_of_mem _ hm))]
    simp [ha]

theorem splitOnChar_joinNl {L : List Str} (hL : ∀ l ∈ L, '\n' ∉ l) (hne : L ≠ []) :
    splitOnChar '\n' (joinNl L) = L := by
  induction L with
  | nil => exact absurd rfl hne
  | cons x L ih =>
    cases L with
    | nil => exact splitOnChar_of_notMem (hL x (List.mem_cons_self x []))
    | cons y L' =>
      have hne2 : y :: L' ≠ [] := List.cons_ne_nil y L'
      rw [joinNl, splitOnChar_append_cons (hL x (List.mem_cons_self x _)),
        ih (fun l hl => hL l (List.mem_cons_of_mem _ hl)) hne2]
      exact hne2

theorem unlines_eq_joinNl {L : List Str} (hne : L ≠ []) : unlines L = joinNl L ++ ['\n'] := by
  induction L with
  | nil => exact absurd rfl hne
  | cons x L ih =>
    cases L with
    | nil => simp [unlines, joinNl]
    | cons y L' =>
      have hne2 : y :: L' ≠ [] := List.cons_ne_nil y L'
      rw [joinNl, unlines, List.flatMap_cons, ← unlines]
      rw [ih hne2]
      · simp
      · exact hne2

theorem takeWhile_append_of_all {α : Type} {p : α → Bool} {A B : List α}
    (hA : ∀ x ∈ A, p x = true) :
    List.takeWhile p (A ++ B) = A ++ List.takeWhile p B := by
  induction A with
  | nil => rfl
  | cons a A ih =>
    rw [List.cons_append, List.takeWhile_cons_of_pos (hA a (List.mem_cons_self a A)),
      ih (fun x hx => hA x (List.mem_cons_of_mem _ hx)), List.cons_append]

theorem takeWhile_eq_nil_of_head {α : Type} {p : α → Bool} {b : α} {B : List α}
    (hb : p b = false) : List.takeWhile p (b :: B) = [] := by
  rw [List.takeWhile_cons_of_neg (by simp [hb])]

theorem take_append_len {α : Type} {A B : List α} : (A ++ B).take A.length = A := by
  simp [List.take_append_eq_append_take]

theorem drop_append_len {α : Type} {A B : List α} : (A ++ B).drop A.length = B := by
  simp [List.drop_append_eq_append_drop]

/-! ## Lemmas about the integer rendering -/

theorem digitChar_isDigit {m : Nat} (h : m < 10) : (digitChar m).isDigit = true := by
  interval_cases m <;> decide

theorem digitChar_toNat {m : Nat} (h : m < 10) : (digitChar m).toNat - 48 = m ∧ 48 ≤ (digitChar m).toNat := by
  interval_cases m <;> decide

theorem natToStr_all_digits {n : Nat} : ∀ c ∈ natToStr n, c.isDigit = true := by
  induction n using Nat.strong_induction_on with
  | _ n ih =>
    intro c hc
    rw [natToStr] at hc
    by_cases h : n < 10
    · simp only [dif_pos h, List.mem_singleton] at hc
      exact hc ▸ digitChar_isDigit h
    · simp only [dif_neg h, List.mem_append, List.mem_singleton] at hc
      rcases hc with hc | hc
      · exact ih (n / 10) (Nat.div_lt_self (by omega) (by omega)) c hc
      · exact hc ▸ digitChar_isDigit (Nat.mod_lt _ (by omega))

theorem natToStr_ne_nil {n : Nat} : natToStr n ≠ [] := by
  rw [natToStr]
  by_cases h : n < 10 <;> simp [h]

theorem strToNat_append {A B : Str} :
    strToNat (A ++ B) = B.foldl (fun a c => a * 10 + (c.toNat - 48)) (strToNat A) := by
  simp [strToNat, List.foldl_append]

theorem strToNat_natToStr {n : Nat} : strToNat (natToStr n) = n := by
  induction n using Nat.strong_induction_on with
  | _ n ih =>
    rw [natToStr]
    by_cases h : n < 10
    · simp only [dif_pos h]
      have := digitChar_toNat h
      simp [strToNat]
      omega
    · simp only [dif_neg h]
      rw [strToNat_append, ih (n / 10) (Nat.div_lt_self (by omega) (by omega))]
      have := digitChar_toNat (Nat.mod_lt n (show 0 < 10 by omega))
      simp only [List.foldl_cons, List.foldl_nil]
      omega

theorem isDigit_ne_dash {c : Char} (h : c.isDigit = true) : c ≠ '-' := by
  intro he
  subst he
  simp [Char.isDigit] at h

theorem isIntLit_natToStr {n : Nat} : isIntLit (natToStr n) = true := by
  rcases h : natToStr n with _ | ⟨c, t⟩
  · exact absurd h natToStr_ne_nil
  · have hall : ∀ x ∈ c :: t, x.isDigit = true := fun x hx => natToStr_all_digits x (h ▸ hx)
    have hc : c ≠ '-' := isDigit_ne_dash (hall c (List.mem_cons_self c t))
    rw [isIntLit, if_neg hc]
    simp only [List.all_eq_true]
    exact hall

theorem intStr_ne_brackets {n : Int} : intStr n ≠ "[]".toList := by
  rw [intStr]
  split
  · intro he
    injection he with h1 _
    exact absurd h1 (by decide)
  · intro he
    rcases h : natToStr n.toNat with _ | ⟨c, t⟩
    · exact absurd h natToStr_ne_nil
    · rw [h] at he
      injection he with h1 _
      have := natToStr_all_digits (n := n.toNat) c (h ▸ List.mem_cons_self c t)
      rw [h1] at this
      exact absurd this (by decide)

theorem parseScalar_intStr {n : Int} : parseScalar (intStr n) = .i n := by
  rw [parseScalar, if_neg intStr_ne_brackets]
  by_cases hn : n < 0
  · have hlit : isIntLit (intStr n) = true := by
      rw [intStr, if_pos hn, isIntLit, if_pos rfl]
      have h1 : natToStr n.natAbs ≠ [] := natToStr_ne_nil
      have h2 : (natToStr n.natAbs).all Char.isDigit = true := by
        simp only [List.all_eq_true]
        exact fun x hx => natToStr_all_digits x hx
      simp [h1, h2]
    rw [if_pos hlit, intStr, if_pos hn]
    have h3 : parseInt ('-' :: natToStr n.natAbs) = - (strToNat (natToStr n.natAbs) : Int) := by
      rw [parseInt, if_pos rfl]
    rw [h3, strToNat_natToStr]
    congr 1
    omega
  · have hlit : isIntLit (intStr n) = true := by
      rw [intStr, if_neg hn]
      exact isIntLit_natToStr
    rw [if_pos hlit, intStr, if_neg hn]
    have hne : parseInt (natToStr n.toNat) = (strToNat (natToStr n.toNat) : Int) := by
      rcases h : natToStr n.toNat with _ | ⟨c, t⟩
      · exact absurd h natToStr_ne_nil
      · have hc : c ≠ '-' :=
          isDigit_ne_dash (natToStr_all_digits (n := n.toNat) c (h ▸ List.mem_cons_self c t))
        rw [parseInt, if_neg hc]
    rw [hne, strToNat_natToStr]
    congr 1
    omega

/-! ## Lemmas about splitKV -/

theorem not_colonspace_infix_header {k : Str} (hk : ':' ∉ k) :
    ¬ (": ".toList) <:+: (k ++ [':']) := by
  induction k with
  | nil =>
    intro hi
    have := hi.sublist.length_le
    simp at this
  | cons a k ih =>
    intro hi
    rw [List.cons_append] at hi
    rcases List.infix_cons_iff.1 hi with hp | hi2
    · obtain ⟨t, ht⟩ := hp
      injection ht with h1 _
      exact hk (h1 ▸ List.mem_cons_self a k)
    · exact ih (fun hm => hk (List.mem_cons_of_mem _ hm)) hi2

theorem splitKV_scalar {k v : Str} (hk : ':' ∉ k) :
    splitKV (k ++ ": ".toList ++ v) = some (k, v) := by
  have e1 : k ++ ": ".toList ++ v = k ++ (':' :: (' ' :: v)) := by simp
  have e2 : findSub? (": ".toList) (k ++ (':' :: (' ' :: v))) = some k.length := by
    have : (": ".toList) = ':' :: [' '] := rfl
    rw [this, findSub?_append_of_head_notMem hk,
      findSub?_of_pre (List.cons_prefix_cons.2 ⟨rfl, List.cons_prefix_cons.2 ⟨rfl, List.nil_prefix⟩⟩)]
    simp
  have e3 : k ++ (':' :: (' ' :: v)) = (k ++ [':', ' ']) ++ v := by simp
  have e4 : (k ++ (':' :: (' ' :: v))).take k.length = k := by
    rw [List.take_append_eq_append_take]
    simp
  have e5 : (k ++ (':' :: (' ' :: v))).drop (k.length + 2) = v := by
    rw [e3, List.drop_append_eq_append_drop]
    have h1 : k.length + 2 - (k ++ [':', ' ']).length = 0 := by simp
    have h2 : (k ++ [':', ' ']).drop (k.length + 2) = [] := by
      apply List.drop_eq_nil_of_le
      simp
    rw [h1, h2]
    simp
  rw [splitKV, e1, e2]
  show some ((k ++ (':' :: (' ' :: v))).take k.length, (k ++ (':' :: (' ' :: v))).drop (k.length + 2)) = some (k, v)
  rw [e4, e5]

theorem splitKV_header {k : Str} (hk : ':' ∉ k) : splitKV (k ++ [':']) = none := by
  rw [splitKV, findSub?_eq_none_iff.2 (not_colonspace_infix_header hk)]

/-! ## The YAML mapping round trip -/

theorem entryLines_head_shape {e : Str × YVal} :
    ∃ X tail, entryLines e = (e.1 ++ ':' :: X) :: tail := by
  rcases e with ⟨k, v | n | _ | ⟨it, its⟩⟩
  · exact ⟨' ' :: v, [], by simp [entryLines]⟩
  · exact ⟨' ' :: intStr n, [], by simp [entryLines]⟩
  · exact ⟨[' ', '[', ']'], [], by simp [entryLines]⟩
  · exact ⟨[], (it :: its).map (fun x => "- ".toList ++ x), by simp [entryLines]⟩

theorem not_dash_prefix_keyline {k X : Str} (hk1 : k ≠ []) (hk4 : ' ' ∉ k) :
    ("- ".toList).isPrefixOf (k ++ ':' :: X) = false := by
  rcases k with _ | ⟨a, k'⟩
  · exact absurd rfl hk1
  · rcases k' with _ | ⟨b, k''⟩
    · simp [List.isPrefixOf]
    · have hb : (' ' == b) = false := by
        have : b ≠ ' ' := fun he => hk4 (he ▸ List.mem_cons_of_mem _ (List.mem_cons_self b k''))
        simp [this.symm]
      simp [List.isPrefixOf, hb]

theorem dash_isPrefixOf_dashline {it : Str} :
    ("- ".toList).isPrefixOf ("- ".toList ++ it) = true :=
  List.isPrefixOf_iff_prefix.2 (List.prefix_append _ _)

/-- Reading one scalar line. -/
theorem loadLines_cons_scalar {k v : Str} {rest : List Str} (hk : ':' ∉ k) :
    loadLines ((k ++ ": ".toList ++ v) :: rest) = (k, parseScalar v) :: loadLines rest := by
  simp only [loadLines, splitKV_scalar hk]

/-- The stop condition the loader needs after a block list: the remaining
lines are empty or start with a key line. -/
def KeyHeaded (rest : List Str) : Prop :=
  rest = [] ∨ ∃ k' X tail, rest = (k' ++ ':' :: X) :: tail ∧ k' ≠ [] ∧ ' ' ∉ k'

theorem takeWhile_dash_stop {rest : List Str} (hstop : KeyHeaded rest) :
    rest.takeWhile (fun l => ("- ".toList).isPrefixOf l) = [] := by
  rcases hstop with rfl | ⟨k', X, tail, rfl, hk1, hk4⟩
  · rfl
  · exact takeWhile_eq_nil_of_head (not_dash_prefix_keyline hk1 hk4)

/-- Reading one block-list entry. -/
theorem loadLines_cons_header {k : Str} {items : List Str} {rest : List Str}
    (hk1 : k ≠ []) (hk3 : ':' ∉ k) (hstop : KeyHeaded rest) :
    loadLines ((k ++ [':']) :: (items.map (fun it => "- ".toList ++ it) ++ rest)) =
      (k, .l items) :: loadLines rest := by
  have hcond : (k ++ [':'] ≠ []) ∧ (k ++ [':']).getLast? = some ':' :=
    ⟨by simp, List.getLast?_concat _⟩
  have htw : (items.map (fun it => "- ".toList ++ it) ++ rest).takeWhile
      (fun l => ("- ".toList).isPrefixOf l) = items.map (fun it => "- ".toList ++ it) := by
    rw [takeWhile_append_of_all (fun x hx => by
      obtain ⟨it, _, rfl⟩ := List.mem_map.1 hx
      exact dash_isPrefixOf_dashline), takeWhile_dash_stop hstop]
    simp
  simp only [loadLines, splitKV_header hk3, if_pos hcond, htw]
  rw [List.dropLast_concat]
  have hmap : (items.map (fun it => "- ".toList ++ it)).map (fun l => l.drop 2) = items := by
    rw [List.map_map]
    have : ((fun l : Str => l.drop 2) ∘ fun it => "- ".toList ++ it) = id := by
      funext it
      simp
    rw [this, List.map_id]
  have hdrop : (items.map (fun it => "- ".toList ++ it) ++ rest).drop
      (items.map (fun it => "- ".toList ++ it)).length = rest := drop_append_len
  rw [hmap, hdrop]

/-- The safe-load of the lines the dumper emits recovers the entries. -/
theorem loadLines_flatMap {es : List (Str × YVal)}
    (h : ∀ e ∈ es, WFKey e.1 ∧ WFVal e.2) :
    loadLines (es.flatMap entryLines) = es := by
  induction es with
  | nil => simp only [List.flatMap_nil, loadLines]
  | cons e es ih =>
    obtain ⟨⟨hk1, hk2, hk3, hk4⟩, hv⟩ := h e (List.mem_cons_self e es)
    have ihres := ih (fun e' he' => h e' (List.mem_cons_of_mem _ he'))
    have hstop : KeyHeaded (es.flatMap entryLines) := by
      rcases es with _ | ⟨e', es'⟩
      · exact Or.inl rfl
      · obtain ⟨X, tail, hshape⟩ := entryLines_head_shape (e := e')
        obtain ⟨hk1', _, _, hk4'⟩ := (h e' (List.mem_cons_of_mem _ (List.mem_cons_self e' es'))).1
        rw [List.flatMap_cons, hshape]
        exact Or.inr ⟨e'.1, X, tail ++ es'.flatMap entryLines, by simp, hk1', hk4'⟩
    rw [List.flatMap_cons]
    rcases e with ⟨k, v | n | items⟩
    · obtain ⟨hv1, hv2, hv3, hv4⟩ := hv
      rw [entryLines, List.singleton_append, loadLines_cons_scalar hk3, ihres]
      rw [parseScalar, if_neg hv4, if_neg (by simp [hv3])]
    · rw [entryLines, List.singleton_append, loadLines_cons_scalar hk3, ihres,
        parseScalar_intStr]
    · rcases items with _ | ⟨it, its⟩
      · rw [entryLines, List.singleton_append]
        have e1 : k ++ ": []".toList = k ++ ": ".toList ++ "[]".toList := by simp
        rw [e1, loadLines_cons_scalar hk3, ihres]
        rw [parseScalar, if_pos rfl]
      · rw [entryLines]
        have e1 : ((k ++ ":".toList) :: (it :: its).map (fun x => "- ".toList ++ x)) ++
            es.flatMap entryLines =
            (k ++ [':']) :: ((it :: its).map (fun x => "- ".toList ++ x) ++
              es.flatMap entryLines) := by simp
        rw [e1, loadLines_cons_header hk1 hk3 hstop, ihres]

/-! ## Shape facts about the dumped lines -/

theorem newline_notMem_natToStr {n : Nat} : '\n' ∉ natToStr n := by
  intro hm
  exact absurd (natToStr_all_digits _ hm) (by decide)

theorem newline_notMem_intStr {n : Int} : '\n' ∉ intStr n := by
  intro hm
  rw [intStr] at hm
  by_cases hn : n < 0
  · rw [if_pos hn] at hm
    rcases List.mem_cons.1 hm with h | h
    · exact absurd h (by decide)
    · exact newline_notMem_natToStr h
  · rw [if_neg hn] at hm
    exact newline_notMem_natToStr hm

theorem ne_dashes_of_colon_mem {l : Str} (h : ':' ∈ l) : l ≠ "---".toList := by
  intro he
  rw [he] at h
  exact absurd h (by decide)

/-- Every line the dumper emits for a well-formed entry is newline-free
and is not the `---` delimiter line. -/
theorem entryLine_facts {e : Str × YVal} (hk : WFKey e.1) (hv : WFVal e.2) :
    ∀ l ∈ entryLines e, '\n' ∉ l ∧ l ≠ "---".toList := by
  obtain ⟨hk1, hk2, hk3, hk4⟩ := hk
  rcases e with ⟨k, v | n | items⟩
  · intro l hl
    rw [entryLines, List.mem_singleton] at hl
    subst hl
    obtain ⟨_, hv2, _, _⟩ := hv
    refine ⟨fun hm => ?_, ne_dashes_of_colon_mem
      (List.mem_append.2 (Or.inl (List.mem_append.2 (Or.inr (by decide)))))⟩
    rcases List.mem_append.1 hm with hm | hm
    · rcases List.mem_append.1 hm with hm | hm
      · exact hk2 hm
      · exact absurd hm (by decide)
    · exact hv2 hm
  · intro l hl
    rw [entryLines, List.mem_singleton] at hl
    subst hl
    refine ⟨fun hm => ?_, ne_dashes_of_colon_mem
      (List.mem_append.2 (Or.inl (List.mem_append.2 (Or.inr (by decide)))))⟩
    rcases List.mem_append.1 hm with hm | hm
    · rcases List.mem_append.1 hm with hm | hm
      · exact hk2 hm
      · exact absurd hm (by decide)
    · exact newline_notMem_intStr hm
  · rcases items with _ | ⟨it, its⟩
    · intro l hl
      rw [entryLines, List.mem_singleton] at hl
      subst hl
      refine ⟨fun hm => ?_, ne_dashes_of_colon_mem
        (List.mem_append.2 (Or.inr (by decide)))⟩
      rcases List.mem_append.1 hm with hm | hm
      · exact hk2 hm
      · exact absurd hm (by decide)
    · intro l hl
      rw [entryLines, List.mem_cons] at hl
      rcases hl with rfl | hl
      · refine ⟨fun hm => ?_, ne_dashes_of_colon_mem
          (List.mem_append.2 (Or.inr (by decide)))⟩
        rcases List.mem_append.1 hm with hm | hm
        · exact hk2 hm
        · exact absurd hm (by decide)
      · obtain ⟨x, hx, rfl⟩ := List.mem_map.1 hl
        have hxw := hv x hx
        refine ⟨fun hm => ?_, fun he => ?_⟩
        · rcases List.mem_append.1 hm with hm | hm
          · exact absurd hm (by decide)
          · exact hxw.2 hm
        · rw [show ("- ".toList ++ x) = '-' :: ' ' :: x from rfl] at he
          injection he with _ h2
          injection h2 with h3 _
          exact absurd h3 (by decide)

theorem dumpLines_facts {md : List (Str × YVal)} (h : ∀ e ∈ md, WFKey e.1 ∧ WFVal e.2) :
    ∀ l ∈ dumpLines md, '\n' ∉ l ∧ l ≠ "---".toList := by
  intro l hl
  rw [dumpLines] at hl
  obtain ⟨e, he, hle⟩ := List.mem_flatMap.1 hl
  have he' : e ∈ md := (List.mem_insertionSort _).1 he
  exact entryLine_facts (h e he').1 (h e he').2 l hle

theorem entryLines_ne_nil {e : Str × YVal} : entryLines e ≠ [] := by
  rcases e with ⟨k, v | n | _ | ⟨it, its⟩⟩ <;> simp [entryLines]

theorem dictInsert_ne_nil {k : Str} {v : YVal} {md : List (Str × YVal)} :
    dictInsert k v md ≠ [] := by
  rcases md with _ | ⟨e, es⟩
  · simp [dictInsert]
  · rw [dictInsert]
    by_cases h : e.1 = k <;> simp [h]

theorem dumpLines_ne_nil {md : List (Str × YVal)} (h : md ≠ []) : dumpLines md ≠ [] := by
  rw [dumpLines]
  intro hflat
  have hperm := List.perm_insertionSort (fun a b : Str × YVal => strLe a.1 b.1) md
  rcases md with _ | ⟨e, es⟩
  · exact h rfl
  · have he : e ∈ sortEntries (e :: es) := (List.mem_insertionSort _).2 (List.mem_cons_self e es)
    rw [List.flatMap_eq_nil_iff] at hflat
    exact entryLines_ne_nil (hflat e he)

/-! ## The frontmatter delimiter -/

/-- A newline-free line other than `---` cannot start the `---` delimiter
line. -/
theorem not_delim_prefix {x R : Str} (hx1 : '\n' ∉ x) (hx2 : x ≠ "---".toList) :
    ¬ ("---\n".toList) <+: (x ++ '\n' :: R) := by
  intro hp
  obtain ⟨t, ht⟩ := hp
  rcases x with _ | ⟨a, x⟩
  · rw [List.nil_append] at ht
    injection ht with h1 _
    exact absurd h1 (by decide)
  rcases x with _ | ⟨b, x⟩
  · rw [List.cons_append, List.nil_append] at ht
    injection ht with _ h2
    injection h2 with h3 _
    exact absurd h3 (by decide)
  rcases x with _ | ⟨c, x⟩
  · rw [List.cons_append, List.cons_append, List.nil_append] at ht
    injection ht with _ h2
    injection h2 with _ h4
    injection h4 with h5 _
    exact absurd h5 (by decide)
  rcases x with _ | ⟨d, x⟩
  · rw [List.cons_append, List.cons_append, List.cons_append, List.nil_append] at ht
    injection ht with h1 h2
    injection h2 with h3 h4
    injection h4 with h5 _
    exact hx2 (by rw [← h1, ← h3, ← h5]; rfl)
  · rw [List.cons_append, List.cons_append, List.cons_append, List.cons_append] at ht
    injection ht with _ h2
    injection h2 with _ h4
    injection h4 with _ h6
    injection h6 with h7 _
    refine hx1 ?_
    rw [h7]
    exact List.mem_cons_of_mem _ (List.mem_cons_of_mem _
      (List.mem_cons_of_mem _ (List.mem_cons_self d x)))

theorem joinNl_one {x : Str} : joinNl [x] = x := rfl

theorem joinNl_cons₂ {x y : Str} {L : List Str} :
    joinNl (x :: y :: L) = x ++ '\n' :: joinNl (y :: L) := rfl

theorem joinNl_cons_append {x : Str} {L : List Str} {T : Str} :
    ∃ R, joinNl (x :: L) ++ '\n' :: T = x ++ '\n' :: R := by
  rcases L with _ | ⟨y, L'⟩
  · exact ⟨T, by rw [joinNl_one]⟩
  · exact ⟨joinNl (y :: L') ++ '\n' :: T, by rw [joinNl_cons₂]; simp⟩

/-- Position of the closing `\n---\n` delimiter after a block of
well-formed lines. -/
theorem findSub?_delim {L : List Str} {b : Str}
    (hL : ∀ l ∈ L, '\n' ∉ l ∧ l ≠ "---".toList) (hne : L ≠ []) :
    findSub? ("\n---\n".toList) (joinNl L ++ ("\n---\n".toList ++ b)) =
      some (joinNl L).length := by
  induction L with
  | nil => exact absurd rfl hne
  | cons l L ih =>
    have hl := hL l (List.mem_cons_self l L)
    have hP : ("\n---\n".toList) = '\n' :: "---\n".toList := rfl
    rcases L with _ | ⟨l₂, L'⟩
    · have e1 : joinNl [l] ++ ("\n---\n".toList ++ b) = l ++ ("\n---\n".toList ++ b) := by
        rw [joinNl_one]
      rw [e1, hP, findSub?_append_of_head_notMem hl.1, ← hP,
        findSub?_of_pre (List.prefix_append _ _), joinNl_one]
      simp
    · have hl₂ := hL l₂ (List.mem_cons_of_mem _ (List.mem_cons_self l₂ L'))
      have hJT : ("\n---\n".toList ++ b) = '\n' :: ("---\n".toList ++ b) := rfl
      obtain ⟨R, hR⟩ := joinNl_cons_append (x := l₂) (L := L') (T := "---\n".toList ++ b)
      have hnp : ¬ ("\n---\n".toList) <+:
          ('\n' :: (joinNl (l₂ :: L') ++ ("\n---\n".toList ++ b))) := by
        intro hpre
        rw [hJT] at hpre
        rw [hP, List.cons_prefix_cons] at hpre
        have hpre2 := hpre.2
        rw [hR] at hpre2
        exact not_delim_prefix hl₂.1 hl₂.2 hpre2
      have e1 : joinNl (l :: l₂ :: L') ++ ("\n---\n".toList ++ b) =
          l ++ ('\n' :: (joinNl (l₂ :: L') ++ ("\n---\n".toList ++ b))) := by
        rw [joinNl_cons₂]
        simp
      rw [e1, hP, findSub?_append_of_head_notMem hl.1, ← hP,
        findSub?_cons_of_not_pre hnp,
        ih (fun x hx => hL x (List.mem_cons_of_mem _ hx)) (List.cons_ne_nil _ _),
        joinNl_cons₂]
      simp
      omega


/-! ## Lemmas about the metadata dictionary -/

theorem alookup_eq_none_iff {k : Str} {md : List (Str × YVal)} :
    alookup k md = none ↔ k ∉ md.map Prod.fst := by
  induction md with
  | nil =>
    rw [alookup, List.map_nil]
    simp
  | cons e es ih =>
    rw [alookup]
    by_cases h : e.1 = k
    · rw [if_pos h, List.map_cons]
      constructor
      · intro hx
        cases hx
      · intro hx
        exfalso
        exact hx (by rw [← h]; exact List.mem_cons_self _ _)
    · simp only [if_neg h, List.map_cons, List.mem_cons, ih]
      constructor
      · rintro hk (he | hm)
        · exact h he.symm
        · exact hk hm
      · intro hk hm
        exact hk (Or.inr hm)

theorem mem_of_alookup_eq_some {k : Str} {v : YVal} {md : List (Str × YVal)}
    (h : alookup k md = some v) : (k, v) ∈ md := by
  induction md with
  | nil => rw [alookup] at h; cases h
  | cons e es ih =>
    rw [alookup] at h
    by_cases he : e.1 = k
    · rw [if_pos he] at h
      injection h with h2
      rw [← he, ← h2]
      exact List.mem_cons_self _ _
    · rw [if_neg he] at h
      exact List.mem_cons_of_mem _ (ih h)

theorem alookup_eq_some_of_mem {k : Str} {v : YVal} {md : List (Str × YVal)}
    (hnd : (md.map Prod.fst).Nodup) (hm : (k, v) ∈ md) : alookup k md = some v := by
  induction md with
  | nil => cases hm
  | cons e es ih =>
    rw [List.map_cons, List.nodup_cons] at hnd
    rw [alookup]
    rcases List.mem_cons.1 hm with rfl | hm'
    · rw [if_pos rfl]
    · have hne : e.1 ≠ k := by
        intro he
        exact hnd.1 (he ▸ List.mem_map.2 ⟨(k, v), hm', rfl⟩)
      rw [if_neg hne]
      exact ih hnd.2 hm'

theorem alookup_perm {md md' : List (Str × YVal)} (hperm : md.Perm md')
    (hnd : (md.map Prod.fst).Nodup) (k : Str) : alookup k md = alookup k md' := by
  have hnd' : (md'.map Prod.fst).Nodup := ((hperm.map Prod.fst).nodup_iff).1 hnd
  rcases h : alookup k md with _ | v
  · rcases h' : alookup k md' with _ | v'
    · rfl
    · exfalso
      have hmem := mem_of_alookup_eq_some h'
      have hk : k ∈ md.map Prod.fst :=
        List.mem_map.2 ⟨(k, v'), hperm.mem_iff.2 hmem, rfl⟩
      exact (alookup_eq_none_iff.1 h) hk
  · exact (alookup_eq_some_of_mem hnd' (hperm.mem_iff.1 (mem_of_alookup_eq_some h))).symm

theorem alookup_dictInsert_self {k : Str} {v : YVal} {md : List (Str × YVal)} :
    alookup k (dictInsert k v md) = some v := by
  induction md with
  | nil => simp [dictInsert, alookup]
  | cons e es ih =>
    rw [dictInsert]
    by_cases h : e.1 = k
    · rw [if_pos h, alookup, if_pos rfl]
    · rw [if_neg h, alookup, if_neg h]
      exact ih

theorem alookup_dictInsert_ne {k k' : Str} {v : YVal} {md : List (Str × YVal)}
    (h : k' ≠ k) : alookup k' (dictInsert k v md) = alookup k' md := by
  induction md with
  | nil =>
    rw [dictInsert, alookup, alookup,
      if_neg (show ¬ ((k, v).1 = k') from fun he => h he.symm), alookup]
  | cons e es ih =>
    rw [dictInsert]
    by_cases he : e.1 = k
    · have hne : e.1 ≠ k' := by rw [he]; exact fun hx => h hx.symm
      rw [if_pos he, alookup, if_neg (fun hx => h hx.symm), alookup, if_neg hne]
    · rw [if_neg he, alookup, alookup]
      by_cases h2 : e.1 = k'
      · rw [if_pos h2, if_pos h2]
      · rw [if_neg h2, if_neg h2]
        exact ih

theorem mem_keys_dictInsert {k' k : Str} {v : YVal} {md : List (Str × YVal)} :
    k' ∈ (dictInsert k v md).map Prod.fst ↔ k' = k ∨ k' ∈ md.map Prod.fst := by
  induction md with
  | nil => simp [dictInsert]
  | cons e es ih =>
    rw [dictInsert]
    by_cases he : e.1 = k
    · rw [if_pos he]
      simp only [List.map_cons, List.mem_cons, he]
      tauto
    · rw [if_neg he]
      simp only [List.map_cons, List.mem_cons, ih]
      tauto

theorem keys_dictInsert_nodup {k : Str} {v : YVal} {md : List (Str × YVal)}
    (h : (md.map Prod.fst).Nodup) : ((dictInsert k v md).map Prod.fst).Nodup := by
  induction md with
  | nil => simp [dictInsert]
  | cons e es ih =>
    rw [List.map_cons, List.nodup_cons] at h
    rw [dictInsert]
    by_cases he : e.1 = k
    · rw [if_pos he, List.map_cons, List.nodup_cons]
      exact ⟨he ▸ h.1, h.2⟩
    · rw [if_neg he, List.map_cons, List.nodup_cons]
      refine ⟨fun hm => ?_, ih h.2⟩
      rcases mem_keys_dictInsert.1 hm with rfl | hm2
      · exact he rfl
      · exact h.1 hm2

theorem mem_dictInsert {e' : Str × YVal} {k : Str} {v : YVal} {md : List (Str × YVal)}
    (h : e' ∈ dictInsert k v md) : e' = (k, v) ∨ e' ∈ md := by
  induction md with
  | nil =>
    simp only [dictInsert, List.mem_singleton] at h
    exact Or.inl h
  | cons e es ih =>
    rw [dictInsert] at h
    by_cases he : e.1 = k
    · rw [if_pos he] at h
      rcases List.mem_cons.1 h with rfl | h2
      · exact Or.inl rfl
      · exact Or.inr (List.mem_cons_of_mem _ h2)
    · rw [if_neg he] at h
      rcases List.mem_cons.1 h with rfl | h2
      · exact Or.inr (List.mem_cons_self _ _)
      · rcases ih h2 with h3 | h3
        · exact Or.inl h3
        · exact Or.inr (List.mem_cons_of_mem _ h3)

/-- Stamping preserves well-formedness, provided the timestamp string is
itself a plain scalar. -/
theorem WFMeta_stampMeta {now : Str} {md : List (Str × YVal)} (h : WFMeta md)
    (hnow : WFVal (.s now)) : WFMeta (stampMeta now md) := by
  obtain ⟨hnd, hent⟩ := h
  refine ⟨keys_dictInsert_nodup (keys_dictInsert_nodup (keys_dictInsert_nodup hnd)), ?_⟩
  have hkc : WFKey ("created".toList) := ⟨by decide, by decide, by decide, by decide⟩
  have hku : WFKey ("updated".toList) := ⟨by decide, by decide, by decide, by decide⟩
  have hkv : WFKey ("version".toList) := ⟨by decide, by decide, by decide, by decide⟩
  have hv10 : WFVal (.s ("1.0.0".toList)) := ⟨by decide, by decide, by decide, by decide⟩
  intro e he
  rcases mem_dictInsert he with rfl | he
  · exact ⟨hkv, hv10⟩
  rcases mem_dictInsert he with rfl | he
  · exact ⟨hku, hnow⟩
  rcases mem_dictInsert he with rfl | he
  · exact ⟨hkc, hnow⟩
  · exact hent e he

/-! ## Sortedness of the dump -/

theorem strLe_total (a b : Str) : strLe a b = true ∨ strLe b a = true := by
  induction a generalizing b with
  | nil => exact Or.inl rfl
  | cons x xs ih =>
    cases b with
    | nil => exact Or.inr rfl
    | cons y ys =>
      rw [strLe, strLe]
      rcases lt_trichotomy x y with h | h | h
      · left; rw [if_pos h]
      · subst h
        rw [if_neg (lt_irrefl x), if_neg (lt_irrefl x), if_neg (lt_irrefl x),
          if_neg (lt_irrefl x)]
        exact ih ys
      · right; rw [if_pos h]

theorem strLe_trans {a b c : Str} (h1 : strLe a b = true) (h2 : strLe b c = true) :
    strLe a c = true := by
  induction a generalizing b c with
  | nil => rfl
  | cons x xs ih =>
    cases b with
    | nil => rw [strLe] at h1; exact absurd h1 (by simp)
    | cons y ys =>
      cases c with
      | nil => rw [strLe] at h2; exact absurd h2 (by simp)
      | cons z zs =>
        rw [strLe] at h1 h2 ⊢
        rcases lt_trichotomy x y with hxy | hxy | hxy
        · rcases lt_trichotomy y z with hyz | hyz | hyz
          · rw [if_pos (lt_trans hxy hyz)]
          · subst hyz
            rw [if_pos hxy]
          · rw [if_neg (lt_asymm hyz), if_pos hyz] at h2
            exact absurd h2 (by simp)
        · subst hxy
          rw [if_neg (lt_irrefl x), if_neg (lt_irrefl x)] at h1
          rcases lt_trichotomy x z with hxz | hxz | hxz
          · rw [if_pos hxz]
          · subst hxz
            rw [if_neg (lt_irrefl x), if_neg (lt_irrefl x)] at h2 ⊢
            exact ih h1 h2
          · rw [if_neg (lt_asymm hxz), if_pos hxz] at h2
            exact absurd h2 (by simp)
        · rw [if_neg (lt_asymm hxy), if_pos hxy] at h1
          exact absurd h1 (by simp)

instance : IsTotal (Str × YVal) (fun a b => strLe a.1 b.1 = true) :=
  ⟨fun a b => strLe_total a.1 b.1⟩

instance : IsTrans (Str × YVal) (fun a b => strLe a.1 b.1 = true) :=
  ⟨fun _ _ _ => strLe_trans⟩

theorem sortEntries_perm {md : List (Str × YVal)} : (sortEntries md).Perm md :=
  List.perm_insertionSort _ _

theorem sortEntries_sorted (md : List (Str × YVal)) :
    (sortEntries md).Pairwise (fun a b => strLe a.1 b.1 = true) :=
  List.sorted_insertionSort _ md


/-! ## Marker search through glued segments -/

theorem preGlue_nil {tail : Str} : preGlue [] tail = tail := rfl

theorem preGlue_cons {s : Str} {ss : List Str} {tail : Str} :
    preGlue (s :: ss) tail = s ++ '\n' :: preGlue ss tail := rfl

theorem preGlue_append {pre : List Str} {tail : Str} :
    preGlue pre tail = preGlue pre [] ++ tail := by
  induction pre with
  | nil => rfl
  | cons s ss ih =>
    rw [preGlue_cons, preGlue_cons, ih]
    simp

/-- A marker that occurs in no glued segment is first found right after
them. -/
theorem findSub?_preGlue {M : Str} {pre : List Str} {post : Str}
    (hM : '\n' ∉ M) (hpre : ∀ s ∈ pre, ¬ M <:+: s) :
    findSub? M (preGlue pre (M ++ post)) = some (preGlue pre []).length := by
  induction pre with
  | nil =>
    rw [preGlue_nil, findSub?_of_pre (List.prefix_append M post)]
    rfl
  | cons s ss ih =>
    rw [preGlue_cons,
      findSub?_append_cons hM (hpre s (List.mem_cons_self s ss)),
      ih (fun x hx => hpre x (List.mem_cons_of_mem _ hx)),
      preGlue_cons]
    simp only [Option.map_some', Option.some.injEq, List.length_append, List.length_cons]
    omega

theorem not_infix_nil {M : Str} (h : M ≠ []) : ¬ M <:+: ([] : Str) := by
  intro hi
  exact h (List.eq_nil_of_infix_nil hi)

/-- Refute an infix by one character count: the marker has two `#`, the
segment at most one. -/
theorem not_infix_hash_seg {M T : Str} (hM : M.count '#' = 2) (hT : '#' ∉ T) :
    ¬ M <:+: ('#' :: ' ' :: T) := by
  apply not_infix_of_count_lt
  rw [hM]
  have h1 : ('#' :: ' ' :: T).count '#' = 1 + T.count '#' := by
    simp [List.count_cons]
    omega
  rw [h1, List.count_eq_zero.2 hT]
  omega

/-! ## The code-fence search -/

theorem searchCode_append {A B : Str} (hA : bq ∉ A) : searchCode (A ++ B) = searchCode B := by
  induction A with
  | nil => rfl
  | cons a A ih =>
    have ha : a ≠ bq := fun he => hA (he ▸ List.mem_cons_self a A)
    have htry : tryCodeAt (a :: (A ++ B)) = none := by
      rw [tryCodeAt, if_neg ?_]
      intro hp
      obtain ⟨t, ht⟩ := List.isPrefixOf_iff_prefix.1 hp
      rw [show ("```".toList) = bq :: bq :: bq :: [] from by decide] at ht
      rw [List.cons_append] at ht
      injection ht with h1 _
      exact ha h1.symm
    rw [List.cons_append, searchCode, htry,
      ih (fun hm => hA (List.mem_cons_of_mem _ hm))]

/-- Position of the closing fence when the code contains no triple
backtick. -/
theorem findSub?_fence {C R : Str} (hC : ¬ ("```".toList) <:+: C) :
    findSub? ("\n```".toList) (C ++ '\n' :: ("```".toList ++ R)) = some C.length := by
  induction C with
  | nil =>
    rw [List.nil_append]
    rw [findSub?_of_pre ?_]
    · rfl
    · rw [show ("\n```".toList) = '\n' :: "```".toList from rfl]
      exact List.cons_prefix_cons.2 ⟨rfl, List.prefix_append _ _⟩
  | cons c C' ih =>
    have hnp : ¬ ("\n```".toList) <+: (c :: (C' ++ '\n' :: ("```".toList ++ R))) := by
      intro hp
      rw [show ("\n```".toList) = '\n' :: "```".toList from rfl, List.cons_prefix_cons] at hp
      obtain ⟨_, hp2⟩ := hp
      have hpr : ("```".toList) <+: C' := prefix_of_prefix_append_cons (by decide) hp2
      exact hC (hpr.isInfix.trans (⟨[c], [], by simp⟩ : C' <:+: c :: C'))
    rw [List.cons_append, findSub?_cons_of_not_pre hnp,
      ih (fun hi => hC (hi.trans (⟨[c], [], by simp⟩ : C' <:+: c :: C')))]
    simp

theorem takeWhile_word_lang {L : Str} {rest : Str} (hL : ∀ c ∈ L, isWordChar c = true) :
    (L ++ '\n' :: rest).takeWhile isWordChar = L := by
  rw [takeWhile_append_of_all hL, takeWhile_eq_nil_of_head (by decide)]
  simp

theorem tryCodeAt_fence {L C R : Str} (hL : ∀ c ∈ L, isWordChar c = true)
    (hC : ¬ ("```".toList) <:+: C) :
    tryCodeAt (bq :: bq :: bq :: (L ++ '\n' :: (C ++ '\n' :: ("```".toList ++ R)))) =
      some C := by
  have h1 : (L ++ '\n' :: (C ++ '\n' :: ("```".toList ++ R))).takeWhile isWordChar = L :=
    takeWhile_word_lang hL
  have h2 : (L ++ '\n' :: (C ++ '\n' :: ("```".toList ++ R))).drop L.length =
      '\n' :: (C ++ '\n' :: ("```".toList ++ R)) := drop_append_len
  have hpre : ("```".toList).isPrefixOf
      (bq :: bq :: bq :: (L ++ '\n' :: (C ++ '\n' :: ("```".toList ++ R)))) = true :=
    List.isPrefixOf_iff_prefix.2 ⟨L ++ '\n' :: (C ++ '\n' :: ("```".toList ++ R)), by
      rw [show ("```".toList) = [bq, bq, bq] from by decide]
      rfl⟩
  rw [tryCodeAt, if_pos hpre]
  rw [show ((bq :: bq :: bq :: (L ++ '\n' :: (C ++ '\n' :: ("```".toList ++ R)))).drop 3) =
      L ++ '\n' :: (C ++ '\n' :: ("```".toList ++ R)) from rfl]
  simp only [h1, h2]
  show (findSub? ("\n```".toList) (C ++ '\n' :: ("```".toList ++ R))).map
      (fun k => (C ++ '\n' :: ("```".toList ++ R)).take k) = some C
  rw [findSub?_fence hC]
  simp only [Option.map_some', Option.some.injEq]
  rw [List.take_append_eq_append_take]
  simp

theorem searchCode_fence {L C R : Str} (hL : ∀ c ∈ L, isWordChar c = true)
    (hC : ¬ ("```".toList) <:+: C) :
    searchCode (bq :: bq :: bq :: (L ++ '\n' :: (C ++ '\n' :: ("```".toList ++ R)))) =
      some C := by
  rw [searchCode, tryCodeAt_fence hL hC]


/-! ## Decomposition of the serialized document -/

theorem preGlue_split {l1 l2 : List Str} {t : Str} :
    preGlue (l1 ++ l2) t = preGlue l1 (preGlue l2 t) := by
  rw [preGlue, preGlue, preGlue, List.foldr_append]

theorem notMem_preGlue {c : Char} {pre : List Str} (hc : c ≠ '\n')
    (hpre : ∀ s ∈ pre, c ∉ s) : c ∉ preGlue pre [] := by
  induction pre with
  | nil => simp [preGlue_nil]
  | cons s ss ih =>
    rw [preGlue_cons]
    intro hm
    rcases List.mem_append.1 hm with hm | hm
    · exact hpre s (List.mem_cons_self s ss) hm
    · rcases List.mem_cons.1 hm with rfl | hm
      · exact hc rfl
      · exact ih (fun x hx => hpre x (List.mem_cons_of_mem _ hx)) hm

theorem extract_section_eq {text start e : Str} {i k : Nat}
    (h1 : findSub? start text = some i)
    (h2 : findSub? e (text.drop (i + start.length)) = some k) :
    extract_section text start (some e) = strip ((text.drop (i + start.length)).take k) := by
  simp only [extract_section, h1, h2]

/-- The canonical segment list of the markdown body: every free-text
piece and every heading, each followed by one newline, down to the code
fence. -/
def bodySegs (Ttl D S U N : Str) : List Str :=
  [[], '#' :: ' ' :: Ttl, [], "## Description".toList, [], D, [],
   "## Setup Instructions".toList, [], S, [],
   "## Usage".toList, [], U, [],
   "## Notes".toList, [], N, [],
   "## Code".toList, []]

theorem docBody_decomp {Ttl D S U N L C : Str} :
    docBody Ttl D S U N L C =
      preGlue (bodySegs Ttl D S U N)
        ([bq, bq, bq] ++ (L ++ '\n' :: (C ++ '\n' :: ([bq, bq, bq] ++ ['\n'])))) := by
  rw [docBody, bodySegs]
  rw [show ("\n# ".toList) = ['\n', '#', ' '] from by decide,
    show ("\n\n## Description\n\n".toList) =
      ['\n', '\n'] ++ ("## Description".toList ++ ['\n', '\n']) from by decide,
    show ("\n\n## Setup Instructions\n\n".toList) =
      ['\n', '\n'] ++ ("## Setup Instructions".toList ++ ['\n', '\n']) from by decide,
    show ("\n\n## Usage\n\n".toList) =
      ['\n', '\n'] ++ ("## Usage".toList ++ ['\n', '\n']) from by decide,
    show ("\n\n## Notes\n\n".toList) =
      ['\n', '\n'] ++ ("## Notes".toList ++ ['\n', '\n']) from by decide,
    show ("\n\n## Code\n\n```".toList) =
      ['\n', '\n'] ++ ("## Code".toList ++ (['\n', '\n'] ++ [bq, bq, bq])) from by decide,
    show ("\n".toList) = ['\n'] from by decide,
    show ("\n```\n".toList) = ['\n'] ++ ([bq, bq, bq] ++ ['\n']) from by decide]
  simp [preGlue_cons, preGlue_nil, List.append_assoc]

theorem format_doc_decomp {now : Str} {p : Pattern} :
    (format_pattern_markdown now p).1 =
      "---\n".toList ++ (yaml_dump (stampMeta now p.metadata) ++ ("---\n".toList ++
        docBody (docTitle (stampMeta now p.metadata)) p.description p.setup p.usage
          p.notes p.language p.code)) := by
  rw [format_pattern_markdown, docBody, docTitle]
  rw [show ("---\n\n# ".toList) = "---\n".toList ++ "\n# ".toList from by decide]
  simp [List.append_assoc]

theorem parseDoc_shape {fmL : List Str} {rest2 : Str}
    (hfm : ∀ l ∈ fmL, '\n' ∉ l ∧ l ≠ "---".toList) (hfmne : fmL ≠ []) :
    parseDoc ("---\n".toList ++ (unlines fmL ++ ("---\n".toList ++ rest2))) =
      some (joinNl fmL, rest2) := by
  have hpre : ("---\n".toList).isPrefixOf
      ("---\n".toList ++ (unlines fmL ++ ("---\n".toList ++ rest2))) = true :=
    List.isPrefixOf_iff_prefix.2 (List.prefix_append _ _)
  rw [parseDoc, if_pos hpre]
  have hdrop4 : ("---\n".toList ++ (unlines fmL ++ ("---\n".toList ++ rest2))).drop 4 =
      unlines fmL ++ ("---\n".toList ++ rest2) := by
    rw [show ("---\n".toList) = ['-', '-', '-', '\n'] from by decide]
    rfl
  rw [hdrop4]
  have hre : unlines fmL ++ ("---\n".toList ++ rest2) =
      joinNl fmL ++ ("\n---\n".toList ++ rest2) := by
    rw [unlines_eq_joinNl hfmne,
      show ("\n---\n".toList) = '\n' :: "---\n".toList from rfl]
    simp
  rw [hre]
  simp only [findSub?_delim hfm hfmne]
  have ht : (joinNl fmL ++ ("\n---\n".toList ++ rest2)).take (joinNl fmL).length =
      joinNl fmL := take_append_len
  have hd : (joinNl fmL ++ ("\n---\n".toList ++ rest2)).drop ((joinNl fmL).length + 5) =
      rest2 := by
    rw [List.drop_append_eq_append_drop, List.drop_eq_nil_of_le (by omega)]
    have h5 : (joinNl fmL).length + 5 - (joinNl fmL).length = 5 := by omega
    rw [h5, show ("\n---\n".toList) = ['\n', '-', '-', '-', '\n'] from by decide]
    rfl
  rw [ht, hd]


/-! ## Section extraction on the serialized body -/

theorem drop_preGlue_marker {pre : List Str} {M post : Str} :
    (preGlue pre (M ++ post)).drop ((preGlue pre []).length + M.length) = post := by
  have e1 : preGlue pre (M ++ post) = (preGlue pre [] ++ M) ++ post := by
    rw [preGlue_append]
    simp
  have e2 : (preGlue pre []).length + M.length = (preGlue pre [] ++ M).length := by simp
  rw [e1, e2]
  exact drop_append_len

/-- Extracting the section between two markers from the glued body
recovers the (stripped) section. -/
theorem extract_marker_preGlue {pre1 : List Str} {M1 S M2 : Str} {rest2 : List Str}
    {tailC : Str}
    (hM1 : '\n' ∉ M1) (hM2 : '\n' ∉ M2) (hM2ne : M2 ≠ [])
    (hpre1 : ∀ s ∈ pre1, ¬ M1 <:+: s)
    (hS : ¬ M2 <:+: S) (hSs : strip S = S) :
    strip (extract_section
      (preGlue (pre1 ++ (M1 :: ([] :: S :: [] :: (M2 :: rest2)))) tailC) M1 (some M2)) = S := by
  have e1 : preGlue (pre1 ++ (M1 :: ([] :: S :: [] :: (M2 :: rest2)))) tailC =
      preGlue pre1 (M1 ++ '\n' :: preGlue ([] :: S :: [] :: (M2 :: rest2)) tailC) := by
    rw [preGlue_split, preGlue_cons]
  have h1 : findSub? M1 (preGlue (pre1 ++ (M1 :: ([] :: S :: [] :: (M2 :: rest2)))) tailC) =
      some (preGlue pre1 []).length := by
    rw [e1]
    exact findSub?_preGlue hM1 hpre1
  have hrest : (preGlue (pre1 ++ (M1 :: ([] :: S :: [] :: (M2 :: rest2)))) tailC).drop
      ((preGlue pre1 []).length + M1.length) =
      '\n' :: preGlue ([] :: S :: [] :: (M2 :: rest2)) tailC := by
    rw [e1]
    exact drop_preGlue_marker
  have e2 : '\n' :: preGlue ([] :: S :: [] :: (M2 :: rest2)) tailC =
      preGlue [[], [], S, []] (M2 ++ '\n' :: preGlue rest2 tailC) := by
    simp [preGlue_cons, preGlue_nil]
  have h2 : findSub? M2 ((preGlue (pre1 ++ (M1 :: ([] :: S :: [] :: (M2 :: rest2)))) tailC).drop
      ((preGlue pre1 []).length + M1.length)) = some (preGlue [[], [], S, []] ([] : Str)).length := by
    rw [hrest, e2]
    apply findSub?_preGlue hM2
    intro s hs
    fin_cases hs
    · exact not_infix_nil hM2ne
    · exact not_infix_nil hM2ne
    · exact hS
    · exact not_infix_nil hM2ne
  rw [extract_section_eq h1 h2, hrest, e2]
  have hblock : preGlue [[], [], S, []] ([] : Str) = '\n' :: '\n' :: (S ++ ['\n', '\n']) := by
    simp [preGlue_cons, preGlue_nil]
  have htake : (preGlue [[], [], S, []] (M2 ++ '\n' :: preGlue rest2 tailC)).take
      (preGlue [[], [], S, []] ([] : Str)).length = '\n' :: '\n' :: (S ++ ['\n', '\n']) := by
    have e3 : preGlue [[], [], S, []] (M2 ++ '\n' :: preGlue rest2 tailC) =
        preGlue [[], [], S, []] [] ++ (M2 ++ '\n' :: preGlue rest2 tailC) := preGlue_append
    rw [e3, take_append_len, hblock]
  rw [htake, strip_pad hSs]
  exact hSs

/-- The fenced code block behind a backtick-free glued prefix. -/
theorem searchCode_preGlue {preC : List Str} {L C : Str}
    (hpre : ∀ s ∈ preC, bq ∉ s) (hL : ∀ c ∈ L, isWordChar c = true)
    (hC : ¬ ("```".toList) <:+: C) :
    searchCode (preGlue preC
      ([bq, bq, bq] ++ (L ++ '\n' :: (C ++ '\n' :: ([bq, bq, bq] ++ ['\n']))))) = some C := by
  have efence : ([bq, bq, bq] : Str) ++ (L ++ '\n' :: (C ++ '\n' :: ([bq, bq, bq] ++ ['\n']))) =
      bq :: bq :: bq :: (L ++ '\n' :: (C ++ '\n' :: ("```".toList ++ ['\n']))) := by
    rw [show ("```".toList) = [bq, bq, bq] from by decide]
    rfl
  rw [preGlue_append, searchCode_append (notMem_preGlue (by decide) hpre), efence]
  exact searchCode_fence hL hC

/-- Master computation: parsing the serialized document recovers the
code, setup and usage sections and the (sorted) stamped metadata. -/
theorem parse_of_format {now : Str} {p : Pattern}
    (hmeta : WFMeta p.metadata) (hnow : WFVal (.s now))
    (hTh : '#' ∉ docTitle (stampMeta now p.metadata))
    (hTb : bq ∉ docTitle (stampMeta now p.metadata))
    (hDh : '#' ∉ p.description) (hDb : bq ∉ p.description)
    (hSh : '#' ∉ p.setup) (hSb : bq ∉ p.setup) (hSs : strip p.setup = p.setup)
    (hUh : '#' ∉ p.usage) (hUb : bq ∉ p.usage) (hUs : strip p.usage = p.usage)
    (hNb : bq ∉ p.notes)
    (hLw : ∀ c ∈ p.language, isWordChar c = true)
    (hCf : ¬ ("```".toList) <:+: p.code) :
    (parse_pattern_file ((format_pattern_markdown now p).1)).map Pattern.code =
      some p.code ∧
    (parse_pattern_file ((format_pattern_markdown now p).1)).map Pattern.setup =
      some p.setup ∧
    (parse_pattern_file ((format_pattern_markdown now p).1)).map Pattern.usage =
      some p.usage ∧
    (parse_pattern_file ((format_pattern_markdown now p).1)).map Pattern.metadata =
      some (sortEntries (stampMeta now p.metadata)) := by
  have hWFm : WFMeta (stampMeta now p.metadata) := WFMeta_stampMeta hmeta hnow
  have hfm := dumpLines_facts hWFm.2
  have hmdne : stampMeta now p.metadata ≠ [] := by
    rw [stampMeta]
    exact dictInsert_ne_nil
  have hfmne : dumpLines (stampMeta now p.metadata) ≠ [] := dumpLines_ne_nil hmdne
  have hpd : parseDoc ((format_pattern_markdown now p).1) =
      some (joinNl (dumpLines (stampMeta now p.metadata)),
        docBody (docTitle (stampMeta now p.metadata)) p.description p.setup p.usage
          p.notes p.language p.code) := by
    rw [format_doc_decomp]
    exact parseDoc_shape hfm hfmne
  have hents : ∀ e ∈ sortEntries (stampMeta now p.metadata), WFKey e.1 ∧ WFVal e.2 := by
    intro e he
    exact hWFm.2 e ((List.mem_insertionSort _).1 he)
  have hmet : yaml_load (joinNl (dumpLines (stampMeta now p.metadata))) =
      sortEntries (stampMeta now p.metadata) := by
    rw [yaml_load, splitOnChar_joinNl (fun l hl => (hfm l hl).1) hfmne, dumpLines,
      loadLines_flatMap hents]
  have hcode : (searchCode (docBody (docTitle (stampMeta now p.metadata)) p.description
      p.setup p.usage p.notes p.language p.code)).getD [] = p.code := by
    rw [docBody_decomp, searchCode_preGlue ?_ hLw hCf]
    · rfl
    · intro s hs
      rw [bodySegs] at hs
      fin_cases hs
      · exact List.not_mem_nil bq
      · intro hm
        rcases List.mem_cons.1 hm with h | h
        · exact absurd h.symm (by decide)
        rcases List.mem_cons.1 h with h | h
        · exact absurd h.symm (by decide)
        · exact hTb h
      · exact List.not_mem_nil bq
      · decide
      · exact List.not_mem_nil bq
      · exact hDb
      · exact List.not_mem_nil bq
      · decide
      · exact List.not_mem_nil bq
      · exact hSb
      · exact List.not_mem_nil bq
      · decide
      · exact List.not_mem_nil bq
      · exact hUb
      · exact List.not_mem_nil bq
      · decide
      · exact List.not_mem_nil bq
      · exact hNb
      · exact List.not_mem_nil bq
      · decide
      · exact List.not_mem_nil bq
  have hsetup : strip (extract_section (docBody (docTitle (stampMeta now p.metadata))
      p.description p.setup p.usage p.notes p.language p.code)
      ("## Setup Instructions".toList) (some ("## Usage".toList))) = p.setup := by
    rw [docBody_decomp,
      show bodySegs (docTitle (stampMeta now p.metadata)) p.description p.setup p.usage
          p.notes =
        [[], '#' :: ' ' :: docTitle (stampMeta now p.metadata), [],
         "## Description".toList, [], p.description, []] ++
        ("## Setup Instructions".toList :: ([] :: p.setup :: [] ::
          ("## Usage".toList :: [[], p.usage, [], "## Notes".toList, [], p.notes, [],
            "## Code".toList, []]))) from by rw [bodySegs]; rfl]
    apply extract_marker_preGlue (by decide) (by decide) (by decide) ?_ ?_ hSs
    · intro s hs
      fin_cases hs
      · exact not_infix_nil (by decide)
      · exact not_infix_hash_seg (by decide) hTh
      · exact not_infix_nil (by decide)
      · exact findSub?_eq_none_iff.1 (by decide)
      · exact not_infix_nil (by decide)
      · exact not_infix_of_mem_notMem (by decide) hDh
      · exact not_infix_nil (by decide)
    · exact not_infix_of_mem_notMem (by decide) hSh
  have husage : strip (extract_section (docBody (docTitle (stampMeta now p.metadata))
      p.description p.setup p.usage p.notes p.language p.code)
      ("## Usage".toList) (some ("## Notes".toList))) = p.usage := by
    rw [docBody_decomp,
      show bodySegs (docTitle (stampMeta now p.metadata)) p.description p.setup p.usage
          p.notes =
        [[], '#' :: ' ' :: docTitle (stampMeta now p.metadata), [],
         "## Description".toList, [], p.description, [],
         "## Setup Instructions".toList, [], p.setup, []] ++
        ("## Usage".toList :: ([] :: p.usage :: [] ::
          ("## Notes".toList :: [[], p.notes, [], "## Code".toList, []]))) from by
        rw [bodySegs]; rfl]
    apply extract_marker_preGlue (by decide) (by decide) (by decide) ?_ ?_ hUs
    · intro s hs
      fin_cases hs
      · exact not_infix_nil (by decide)
      · exact not_infix_hash_seg (by decide) hTh
      · exact not_infix_nil (by decide)
      · exact findSub?_eq_none_iff.1 (by decide)
      · exact not_infix_nil (by decide)
      · exact not_infix_of_mem_notMem (by decide) hDh
      · exact not_infix_nil (by decide)
      · exact findSub?_eq_none_iff.1 (by decide)
      · exact not_infix_nil (by decide)
      · exact not_infix_of_mem_notMem (by decide) hSh
      · exact not_infix_nil (by decide)
    · exact not_infix_of_mem_notMem (by decide) hUh
  simp only [parse_pattern_file, hpd]
  refine ⟨?_, ?_, ?_, ?_⟩
  · simp only [Option.map_some']
    rw [hcode]
  · simp only [Option.map_some']
    rw [hsetup]
  · simp only [Option.map_some']
    rw [husage]
  · simp only [Option.map_some']
    rw [hmet]


/-! ## Lemmas about the matcher loop -/

theorem find_go_nil {tl : Str} {tw : List Str} {best : Option Pattern} {bs : Rat} :
    find_go tl tw [] best bs = best := rfl

theorem find_go_skip {tl : Str} {tw : List Str} {q : Pattern} {rest : List Pattern}
    {best : Option Pattern} {bs : Rat} (hq : candLabel q = none) :
    find_go tl tw (q :: rest) best bs = find_go tl tw rest best bs := by
  simp only [find_go, hq]

theorem find_go_hit {tl : Str} {tw : List Str} {q : Pattern} {rest : List Pattern}
    {best : Option Pattern} {bs : Rat} (hq : candLabel q = some tl) :
    find_go tl tw (q :: rest) best bs = some q := by
  simp [find_go, hq]

theorem find_go_step {tl : Str} {tw : List Str} {q : Pattern} {rest : List Pattern}
    {best : Option Pattern} {bs : Rat} {qt : Str}
    (hq : candLabel q = some qt) (hne : tl ≠ qt) :
    find_go tl tw (q :: rest) best bs =
      if bs < matchScore tw (wordSet qt) ∧ (3 : Rat) / 10 < matchScore tw (wordSet qt)
      then find_go tl tw rest (some q) (matchScore tw (wordSet qt))
      else find_go tl tw rest best bs := by
  simp only [find_go, hq, if_neg hne]

theorem matchScore_zero {tw pw : List Str} (h : interWords tw pw = []) :
    matchScore tw pw = 0 := by
  simp [matchScore, h]

/-- The exact-match short circuit: the first candidate whose case-folded
label equals the task is returned, whatever came before and whatever
follows. -/
theorem find_go_exact {tl : Str} {tw : List Str} {c : Pattern} {l₂ : List Pattern} :
    ∀ {l₁ : List Pattern} {best : Option Pattern} {bs : Rat},
      candLabel c = some tl → (∀ c' ∈ l₁, candLabel c' ≠ some tl) →
      find_go tl tw (l₁ ++ c :: l₂) best bs = some c := by
  intro l₁
  induction l₁ with
  | nil =>
    intro best bs hc _
    rw [List.nil_append]
    exact find_go_hit hc
  | cons p rest ih =>
    intro best bs hc h1
    rw [List.cons_append]
    rcases hcl : candLabel p with _ | pt
    · rw [find_go_skip hcl]
      exact ih hc (fun x hx => h1 x (List.mem_cons_of_mem _ hx))
    · have hne : tl ≠ pt := by
        intro he
        exact h1 p (List.mem_cons_self p rest) (by rw [hcl, he])
      rw [find_go_step hcl hne]
      by_cases hsc : bs < matchScore tw (wordSet pt) ∧
          (3 : Rat) / 10 < matchScore tw (wordSet pt)
      · rw [if_pos hsc]
        exact ih hc (fun x hx => h1 x (List.mem_cons_of_mem _ hx))
      · rw [if_neg hsc]
        exact ih hc (fun x hx => h1 x (List.mem_cons_of_mem _ hx))

/-- A candidate with no common words and no exact match is never the
loop's answer. -/
theorem find_go_never_zero {tl : Str} {tw : List Str} {p : Pattern}
    (hz : ∀ pt, candLabel p = some pt → interWords tw (wordSet pt) = [])
    (hne : candLabel p ≠ some tl) :
    ∀ {l : List Pattern} {best : Option Pattern} {bs : Rat},
      best ≠ some p → find_go tl tw l best bs ≠ some p := by
  intro l
  induction l with
  | nil =>
    intro best bs hb
    rw [find_go_nil]
    exact hb
  | cons q rest ih =>
    intro best bs hb
    rcases hcl : candLabel q with _ | qt
    · rw [find_go_skip hcl]
      exact ih hb
    · by_cases he : tl = qt
      · have hql : candLabel q = some tl := by rw [he]; exact hcl
        rw [find_go_hit hql]
        intro hqp
        injection hqp with hqp
        exact hne (hqp ▸ hql)
      · rw [find_go_step hcl he]
        by_cases hsc : bs < matchScore tw (wordSet qt) ∧
            (3 : Rat) / 10 < matchScore tw (wordSet qt)
        · rw [if_pos hsc]
          apply ih
          intro hq
          injection hq with hq
          rw [← hq] at hz
          have h0 : matchScore tw (wordSet qt) = 0 := matchScore_zero (hz qt hcl)
          rw [h0] at hsc
          exact absurd hsc.2 (by norm_num)
        · rw [if_neg hsc]
          exact ih hb

/-- When no candidate matches exactly and none scores above the
threshold, the running best never changes. -/
theorem find_go_all_below {tl : Str} {tw : List Str} :
    ∀ {l : List Pattern},
      (∀ q ∈ l, candLabel q ≠ some tl ∧
        ∀ qt, candLabel q = some qt → matchScore tw (wordSet qt) ≤ (3 : Rat) / 10) →
      ∀ {best : Option Pattern} {bs : Rat}, find_go tl tw l best bs = best := by
  intro l
  induction l with
  | nil =>
    intro _ best bs
    exact find_go_nil
  | cons q rest ih =>
    intro hall best bs
    have hq := hall q (List.mem_cons_self q rest)
    rcases hcl : candLabel q with _ | qt
    · rw [find_go_skip hcl]
      exact ih (fun x hx => hall x (List.mem_cons_of_mem _ hx))
    · have hne : tl ≠ qt := fun he => hq.1 (by rw [hcl, he])
      rw [find_go_step hcl hne]
      have hle := hq.2 qt hcl
      rw [if_neg (by
        intro hsc
        exact absurd hsc.2 (not_lt.2 hle))]
      exact ih (fun x hx => hall x (List.mem_cons_of_mem _ hx))

/-- `matchScore` coincides with the score formula of the specification
(the zero-intersection branch of the source equals `0 / max`). -/
theorem matchScore_eq_spec (tw pw : List Str) :
    matchScore tw pw = spec_score_formula tw pw := by
  rw [matchScore, spec_score_formula]
  by_cases h : interWords tw pw = []
  · rw [if_pos h, h]
    simp
  · rw [if_neg h]

/-- Evaluation rule for `matchScore` with a non-empty intersection, in
terms of the two computed cardinalities. -/
theorem matchScore_eval {tw pw : List Str} {n m : Nat}
    (h : interWords tw pw ≠ []) (hn : (interWords tw pw).length = n)
    (hm : max tw.length pw.length = m) :
    matchScore tw pw = (n : Rat) / (m : Rat) := by
  simp only [matchScore]
  rw [if_neg h, hn, hm]

/-- Evaluation rule for `execute` when no stored pattern matches and
creation succeeds: the run forks on the validation verdict. -/
theorem execute_none_ok {a : Agent} {now : Str} {st : AgentState} {task : Str} {q : Pattern}
    (hf : find_pattern task st.store = none) (hc : a.create_pattern task = .ok q) :
    execute a now st task =
      if (validate_pattern q).valid = true then
        (generate_from_pattern q task, log_metrics a now task true (save_pattern q st))
      else
        handle_error a now ("Pattern validation failed: ".toList ++
          pyReprStrList (validate_pattern q).errors) task st := by
  rw [execute, hf, hc]

/-- An occurring substring is found by `containsSub`. -/
theorem containsSub_of_infix {pat s : Str} (h : pat <:+: s) : containsSub pat s = true := by
  rw [containsSub]
  rcases hf : findSub? pat s with _ | i
  · exact absurd h (findSub?_eq_none_iff.1 hf)
  · rfl

/-! ## The claims -/

/-- C2: for every task and candidate collection, a candidate whose stored
task label equals the task after case-folding is returned as soon as the
scan reaches it, without scoring further candidates and regardless of the
scores of every other candidate present. -/
theorem C2_exact_match_short_circuit (t : Str) (l₁ l₂ : List Pattern) (c : Pattern)
    (hc : candLabel c = some (pyLower t))
    (hfirst : ∀ x ∈ l₁, candLabel x ≠ some (pyLower t)) :
    find_pattern t (l₁ ++ c :: l₂) = some c := by
  simp only [find_pattern]
  exact find_go_exact hc hfirst

/-- C2 witness: a concrete exact match sitting behind one scoring
candidate and ahead of another is the one returned. -/
theorem C2_exact_match_short_circuit_witness :
    find_pattern ("Create Homepage".toList)
      ([mkCand ("create a homepage now") ("OTHER")] ++
        mkCand ("create homepage") ("EXACT") :: [mkCand ("x") ("X")]) =
      some (mkCand ("create homepage") ("EXACT")) :=
  C2_exact_match_short_circuit _ _ _ _ (by decide) (by decide)

/-- C3: the match score is exactly the specification formula over the
word sets, and a candidate sharing zero words with the task is never
returned by the matcher, provided its label is not an exact case-folded
match for the task (the exact-match branch ignores scores; see the
counterexample). -/
theorem C3_zero_overlap_never_selected :
    (∀ tw pw, matchScore tw pw = spec_score_formula tw pw) ∧
    ∀ (t : Str) (p : Pattern) (l : List Pattern),
      (∀ pt, candLabel p = some pt → interWords (wordSet (pyLower t)) (wordSet pt) = []) →
      candLabel p ≠ some (pyLower t) →
      find_pattern t l ≠ some p := by
  refine ⟨matchScore_eq_spec, ?_⟩
  intro t p l hz hne
  simp only [find_pattern]
  exact find_go_never_zero hz hne (by simp)

/-- C3 counterexample: a stored candidate whose metadata lacks the task
key gets the empty-string label, shares zero words with the empty task,
yet is returned — through the exact-match branch, not the scorer. -/
theorem C3_counterexample :
    candLabel (labelless ("EMPTY")) = some [] ∧
    interWords (wordSet (pyLower ([] : Str))) (wordSet []) = [] ∧
    find_pattern [] [labelless ("EMPTY")] = some (labelless ("EMPTY")) := by
  decide

/-- C3 witness: a candidate with no word in common with the task is not
selected. -/
theorem C3_zero_overlap_never_selected_witness :
    matchScore (wordSet ("red green".toList)) (wordSet ("blue".toList)) =
      spec_score_formula (wordSet ("red green".toList)) (wordSet ("blue".toList)) ∧
    find_pattern ("red green".toList) [mkCand ("blue") ("B")] ≠
      some (mkCand ("blue") ("B")) := by
  refine ⟨C3_zero_overlap_never_selected.1 _ _, ?_⟩
  apply C3_zero_overlap_never_selected.2
  · intro pt hpt
    have h2 : candLabel (mkCand ("blue") ("B")) = some ("blue".toList) := by decide
    rw [h2] at hpt
    injection hpt with h3
    rw [← h3]
    decide
  · decide

/-- C4: best-candidate tracking.  Against a 20-word task, candidates
scoring 1/4, 7/20 and 1/2 in enumeration order yield the 1/2 candidate;
two candidates tied at 1/2 yield the earlier one; one loop step replaces
the running best exactly when the score strictly exceeds both the best
score and the 3/10 threshold; and when every candidate is at or below
the threshold and none matches exactly, the matcher returns none. -/
theorem C4_best_tracking :
    (matchScore (wordSet (pyLower task20)) (wordSet (pyLower ("a b c d e".toList))) = 1/4 ∧
     matchScore (wordSet (pyLower task20)) (wordSet (pyLower ("a b c d e f g".toList))) = 7/20 ∧
     matchScore (wordSet (pyLower task20))
       (wordSet (pyLower ("a b c d e f g h i j".toList))) = 1/2) ∧
    find_pattern task20 [cand25, cand35, cand50] = some cand50 ∧
    find_pattern task20 [tie1, tie2] = some tie1 ∧
    (∀ (tl : Str) (tw : List Str) (q : Pattern) (rest : List Pattern)
        (best : Option Pattern) (bs : Rat) (qt : Str),
      candLabel q = some qt → tl ≠ qt →
      find_go tl tw (q :: rest) best bs =
        if bs < matchScore tw (wordSet qt) ∧ (3 : Rat) / 10 < matchScore tw (wordSet qt)
        then find_go tl tw rest (some q) (matchScore tw (wordSet qt))
        else find_go tl tw rest best bs) ∧
    ∀ (t : Str) (l : List Pattern),
      (∀ q ∈ l, candLabel q ≠ some (pyLower t) ∧
        ∀ qt, candLabel q = some qt →
          matchScore (wordSet (pyLower t)) (wordSet qt) ≤ (3 : Rat) / 10) →
      find_pattern t l = none := by
  have s25 : matchScore (wordSet (pyLower task20)) (wordSet ("a b c d e".toList)) =
      (5 : Rat) / 20 := matchScore_eval (by decide) (by decide) (by decide)
  have s35 : matchScore (wordSet (pyLower task20)) (wordSet ("a b c d e f g".toList)) =
      (7 : Rat) / 20 := matchScore_eval (by decide) (by decide) (by decide)
  have s50 : matchScore (wordSet (pyLower task20)) (wordSet ("a b c d e f g h i j".toList)) =
      (10 : Rat) / 20 := matchScore_eval (by decide) (by decide) (by decide)
  have q1 : candLabel cand25 = some ("a b c d e".toList) := by decide
  have q2 : candLabel cand35 = some ("a b c d e f g".toList) := by decide
  have q3 : candLabel cand50 = some ("a b c d e f g h i j".toList) := by decide
  have qt1 : candLabel tie1 = some ("a b c d e f g h i j".toList) := by decide
  have qt2 : candLabel tie2 = some ("a b c d e f g h i j".toList) := by decide
  have n1 : pyLower task20 ≠ ("a b c d e".toList) := by decide
  have n2 : pyLower task20 ≠ ("a b c d e f g".toList) := by decide
  have n3 : pyLower task20 ≠ ("a b c d e f g h i j".toList) := by decide
  refine ⟨⟨?_, ?_, ?_⟩, ?_, ?_, ?_, ?_⟩
  · rw [show wordSet (pyLower ("a b c d e".toList)) = wordSet ("a b c d e".toList) from
      by decide, s25]
    norm_num
  · rw [show wordSet (pyLower ("a b c d e f g".toList)) = wordSet ("a b c d e f g".toList)
      from by decide, s35]
  · rw [show wordSet (pyLower ("a b c d e f g h i j".toList)) =
      wordSet ("a b c d e f g h i j".toList) from by decide, s50]
    norm_num
  · simp only [find_pattern]
    rw [find_go_step q1 n1, s25, if_neg (by norm_num),
      find_go_step q2 n2, s35, if_pos (by norm_num),
      find_go_step q3 n3, s50, if_pos (by norm_num), find_go_nil]
  · simp only [find_pattern]
    rw [find_go_step qt1 n3, s50, if_pos (by norm_num),
      find_go_step qt2 n3, s50, if_neg (by norm_num), find_go_nil]
  · intro tl tw q rest best bs qt hq hne
    exact find_go_step hq hne
  · intro t l hall
    simp only [find_pattern]
    exact find_go_all_below hall

/-- C4 counterexample: with the whitespace-only task, a stored
whitespace-only label is an exact match and is returned even though its
score against the task is 0, below the 3/10 threshold — so a threshold
miss alone does not force a none result. -/
theorem C4_counterexample :
    matchScore (wordSet (pyLower (" ".toList))) (wordSet (" ".toList)) = 0 ∧
    ¬ ((3 : Rat) / 10 < matchScore (wordSet (pyLower (" ".toList))) (wordSet (" ".toList))) ∧
    find_pattern (" ".toList) [mkCand (" ") ("WS")] = some (mkCand (" ") ("WS")) := by
  have h0 : matchScore (wordSet (pyLower (" ".toList))) (wordSet (" ".toList)) = 0 :=
    matchScore_zero (by decide)
  refine ⟨h0, by rw [h0]; norm_num, ?_⟩
  simp only [find_pattern]
  exact find_go_hit (by decide)

/-- C4 witness: a one-step instance of the replacement rule, and a
below-threshold candidate list yielding none. -/
theorem C4_best_tracking_witness :
    (find_go ("z".toList) (wordSet ("z".toList)) [cand25] none 0 =
      if (0 : Rat) < matchScore (wordSet ("z".toList)) (wordSet ("a b c d e".toList)) ∧
          (3 : Rat) / 10 < matchScore (wordSet ("z".toList)) (wordSet ("a b c d e".toList))
      then find_go ("z".toList) (wordSet ("z".toList)) [] (some cand25)
        (matchScore (wordSet ("z".toList)) (wordSet ("a b c d e".toList)))
      else find_go ("z".toList) (wordSet ("z".toList)) [] none 0) ∧
    find_pattern ("z".toList) [mkCand ("q w e r") ("Q")] = none := by
  refine ⟨C4_best_tracking.2.2.2.1 _ _ _ _ _ _ _ (by decide) (by decide), ?_⟩
  apply C4_best_tracking.2.2.2.2
  intro q hq
  rw [List.mem_singleton] at hq
  subst hq
  refine ⟨by decide, ?_⟩
  intro qt hqt
  have h2 : candLabel (mkCand ("q w e r") ("Q")) = some ("q w e r".toList) := by decide
  rw [h2] at hqt
  injection hqt with h3
  rw [← h3, matchScore_zero (by decide)]
  norm_num

/-- C5: the validator returns valid exactly when its error list is empty
(warnings never block); a pattern missing the dependencies key is invalid
with an error naming dependencies; a pattern whose trimmed code has 40
characters gets the code-length error; and a pattern passing all error
checks with complexity 7 is valid with a warning. -/
theorem C5_validator :
    (∀ p : Pattern, (validate_pattern p).valid = true ↔ (validate_pattern p).errors = []) ∧
    ((validate_pattern patNoDeps).valid = false ∧
      "Missing required metadata: dependencies".toList ∈ (validate_pattern patNoDeps).errors) ∧
    ((strip pat40.code).length = 40 ∧
      "Pattern code too short".toList ∈ (validate_pattern pat40).errors) ∧
    ((validate_pattern patCx7).valid = true ∧ (validate_pattern patCx7).warnings ≠ []) := by
  refine ⟨?_, by decide, by decide, by decide⟩
  intro p
  exact ⟨of_decide_eq_true, decide_eq_true⟩

/-- C8: domain dispatch is a case-insensitive substring membership test
against the fixed per-domain keyword lists in table order — a task
hitting an infrastructure keyword goes to infrastructure (the first
table entry), a task hitting none goes to frontend_ui whether or not a
frontend keyword matches (first match wins, and frontend_ui is also the
default) — and the task setup nextjs project dispatches to
infrastructure in any casing. -/
theorem C8_domain_dispatch :
    (∀ t u : Str, pyLower t = pyLower u → determine_agent t = determine_agent u) ∧
    (∀ t : Str, (∃ k ∈ infrastructure_keywords, containsSub k (pyLower t) = true) →
      determine_agent t = "infrastructure".toList) ∧
    (∀ t : Str, (∀ k ∈ infrastructure_keywords, containsSub k (pyLower t) = false) →
      determine_agent t = "frontend_ui".toList) ∧
    ∀ t : Str, pyLower t = "setup nextjs project".toList →
      determine_agent t = "infrastructure".toList := by
  have key2 : ∀ t : Str, (∃ k ∈ infrastructure_keywords, containsSub k (pyLower t) = true) →
      determine_agent t = "infrastructure".toList := by
    intro t hk
    simp only [determine_agent, agent_keywords]
    rw [List.find?_cons_of_pos _ (by
      simp only [List.any_eq_true]
      exact hk)]
  have key3 : ∀ t : Str, (∀ k ∈ infrastructure_keywords, containsSub k (pyLower t) = false) →
      determine_agent t = "frontend_ui".toList := by
    intro t hk
    simp only [determine_agent, agent_keywords]
    rw [List.find?_cons_of_neg _ (by
      intro hpos
      simp only [List.any_eq_true] at hpos
      obtain ⟨k, hkmem, hkc⟩ := hpos
      rw [hk k hkmem] at hkc
      cases hkc)]
    by_cases h2 : frontend_ui_keywords.any (fun k => containsSub k (pyLower t)) = true
    · rw [List.find?_cons_of_pos _ (by exact h2)]
    · rw [List.find?_cons_of_neg _ (by exact h2), List.find?_nil]
  refine ⟨?_, key2, key3, ?_⟩
  · intro t u h
    simp only [determine_agent, h]
  · intro t h
    refine key2 t ⟨"setup".toList, by decide, ?_⟩
    rw [h]
    decide

/-- C8 witness: an upper-cased infrastructure task and a keyword-free
task dispatch as claimed. -/
theorem C8_domain_dispatch_witness :
    determine_agent ("SETUP NextJS Project".toList) = "infrastructure".toList ∧
    determine_agent ("hello world".toList) = "frontend_ui".toList :=
  ⟨C8_domain_dispatch.2.2.2 _ (by decide), C8_domain_dispatch.2.2.1 _ (by decide)⟩

/-- C9: when the frontend store holds no matching pattern, the raised
NotImplementedError of create_pattern is converted by handle_error into
the formatted troubleshooting response — which names the fallback
manual-creation path .ai/patterns/frontend — one line is appended to the
error log, and no exception escapes (execute is a total function of the
state, returning this response). -/
theorem C9_unsupported_creation_handled (now : Str) (st : AgentState) (task : Str)
    (h : find_pattern task st.store = none) :
    (execute frontendAgent now st task).1 =
      errorResponse frontendAgent
        ("Error processing task \x27".toList ++ task ++ "\x27: ".toList ++
          frontend_create_msg task) ∧
    containsSub (".ai/patterns/frontend".toList) (execute frontendAgent now st task).1 = true ∧
    (execute frontendAgent now st task).2.errorLog.length = st.errorLog.length + 1 ∧
    (execute frontendAgent now st task).2.metricsLog = st.metricsLog := by
  have he : execute frontendAgent now st task =
      handle_error frontendAgent now (frontend_create_msg task) task st := by
    rw [execute, h]
    rfl
  refine ⟨?_, ?_, ?_, ?_⟩
  · rw [he]
    rfl
  · rw [he]
    apply containsSub_of_infix
    have hdir : (".ai/patterns/frontend".toList) = patternsDir frontendAgent := by decide
    refine ⟨"\n## Error Encountered\n\n".toList ++
        ("Error processing task \x27".toList ++ task ++ "\x27: ".toList ++
          frontend_create_msg task) ++
        ("\n\n### Troubleshooting Steps:\n" ++
         "1. Check that the philosophy.md file exists\n" ++
         "2. Verify the pattern directory structure\n" ++
         "3. Try creating the pattern manually first\n\n" ++
         "### Fallback Action:\n" ++
         "You can create the pattern manually in: ").toList,
      "\n".toList, ?_⟩
    rw [hdir]
    simp only [handle_error, errorResponse, List.append_assoc]
  · rw [he]
    simp only [handle_error, log_error, List.length_append, List.length_cons,
      List.length_nil, Nat.zero_add]
  · rw [he]
    rfl

/-- C9 witness: the concrete create-homepage task on the empty frontend
store produces a response naming the manual-creation path. -/
theorem C9_unsupported_creation_handled_witness :
    find_pattern ("create homepage".toList) emptyState.store = none ∧
    containsSub (".ai/patterns/frontend".toList)
      (execute frontendAgent ("NOW".toList) emptyState ("create homepage".toList)).1 = true :=
  ⟨by decide,
   (C9_unsupported_creation_handled ("NOW".toList) emptyState ("create homepage".toList)
     (by decide)).2.1⟩

/-- C6 counterexample: on the error path of execute — no stored pattern
matches and creation is refused — no metrics record at all is written,
while the error log does get its line; the log_metrics call sits inside
the try block after pattern creation, so the claimed every-path metrics
record does not happen. -/
theorem C6_counterexample :
    (execute frontendAgent ("NOW".toList) emptyState ("x".toList)).2.metricsLog = [] ∧
    (execute frontendAgent ("NOW".toList) emptyState ("x".toList)).2.errorLog.length = 1 := by
  have he : execute frontendAgent ("NOW".toList) emptyState ("x".toList) =
      handle_error frontendAgent ("NOW".toList) (frontend_create_msg ("x".toList))
        ("x".toList) emptyState := by
    rw [execute, show find_pattern ("x".toList) emptyState.store = none from by decide]
    rfl
  rw [he]
  exact ⟨rfl, rfl⟩

/-- C6 amended: runs that reach the except handler (no stored match and
creation raises or validation fails) append one error line and no
metrics record; all other runs append exactly one metrics record carrying
the current timestamp, the task, the agent domain and the reuse flag,
and leave the error log untouched. -/
theorem C6_metrics_on_every_path (a : Agent) (now : Str) (st : AgentState) (task : Str) :
    if executionFails a st task = true then
      (execute a now st task).2.metricsLog = st.metricsLog ∧
      (execute a now st task).2.errorLog.length = st.errorLog.length + 1
    else
      (∃ n : Nat,
        (execute a now st task).2.metricsLog = st.metricsLog ++
          [{ timestamp := now, task := task, domain := a.domain,
             pattern_reused := true, patterns_total := n }]) ∧
      (execute a now st task).2.errorLog = st.errorLog := by
  rcases hf : find_pattern task st.store with _ | p
  · rcases hc : a.create_pattern task with msg | q
    · have hfail : executionFails a st task = true := by
        rw [executionFails, hf, hc]
      rw [if_pos hfail]
      have he : execute a now st task = handle_error a now msg task st := by
        rw [execute, hf, hc]
      rw [he]
      exact ⟨rfl, by simp [handle_error, log_error]⟩
    · by_cases hv : (validate_pattern q).valid = true
      · have hok : executionFails a st task = false := by
          rw [executionFails, hf, hc]
          show (!(validate_pattern q).valid) = false
          rw [hv, Bool.not_true]
        rw [if_neg (by rw [hok]; exact Bool.false_ne_true)]
        rw [execute_none_ok hf hc, if_pos hv]
        exact ⟨⟨(save_pattern q st).store.length, by simp [log_metrics, save_pattern]⟩, rfl⟩
      · have hfail : executionFails a st task = true := by
          rw [executionFails, hf, hc]
          show (!(validate_pattern q).valid) = true
          cases hb : (validate_pattern q).valid
          · rfl
          · exact absurd hb hv
        rw [if_pos hfail]
        rw [execute_none_ok hf hc, if_neg hv]
        exact ⟨rfl, by simp [handle_error, log_error]⟩
  · have hok : executionFails a st task = false := by
      rw [executionFails, hf]
    rw [if_neg (by rw [hok]; exact Bool.false_ne_true)]
    have he : execute a now st task =
        (generate_from_pattern p task, log_metrics a now task true st) := by
      rw [execute, hf]
    rw [he]
    exact ⟨⟨st.store.length, by simp [log_metrics]⟩, rfl⟩

/-- C6 amended witness: the error path concretely, extracted from the
amended theorem. -/
theorem C6_metrics_on_every_path_witness :
    (execute frontendAgent ("NOW".toList) emptyState ("y".toList)).2.metricsLog =
      emptyState.metricsLog ∧
    (execute frontendAgent ("NOW".toList) emptyState ("y".toList)).2.errorLog.length =
      emptyState.errorLog.length + 1 := by
  have h := C6_metrics_on_every_path frontendAgent ("NOW".toList) emptyState ("y".toList)
  rw [if_pos (by decide)] at h
  exact h

/-- C10: serialization mutates its argument — after every call the input
record carries the stamped metadata, whose created and updated entries
hold the current time and whose version entry holds 1.0.0. -/
theorem C10_serialize_mutates_metadata (now : Str) (p : Pattern) :
    (format_pattern_markdown now p).2.metadata = stampMeta now p.metadata ∧
    alookup ("created".toList) (format_pattern_markdown now p).2.metadata = some (.s now) ∧
    alookup ("updated".toList) (format_pattern_markdown now p).2.metadata = some (.s now) ∧
    alookup ("version".toList) (format_pattern_markdown now p).2.metadata =
      some (.s ("1.0.0".toList)) := by
  have h2 : (format_pattern_markdown now p).2.metadata = stampMeta now p.metadata := rfl
  refine ⟨h2, ?_, ?_, ?_⟩
  · rw [h2, stampMeta, alookup_dictInsert_ne (by decide), alookup_dictInsert_ne (by decide),
      alookup_dictInsert_self]
  · rw [h2, stampMeta, alookup_dictInsert_ne (by decide), alookup_dictInsert_self]
  · rw [h2, stampMeta, alookup_dictInsert_self]

/-- C7 counterexample: reading back the lines the dump emits for the
stamped metadata of a concrete record yields the keys in sorted order,
which differs from the metadata mapping's own insertion order — the
yaml.dump default sorts keys. -/
theorem C7_counterexample :
    (yaml_load (joinNl (dumpLines (stampMeta ("NOW".toList) cexPattern.metadata)))).map
        Prod.fst ≠
      (stampMeta ("NOW".toList) cexPattern.metadata).map Prod.fst := by
  have hWFm : WFMeta (stampMeta ("NOW".toList) cexPattern.metadata) := by decide
  have hfm := dumpLines_facts hWFm.2
  have hfmne : dumpLines (stampMeta ("NOW".toList) cexPattern.metadata) ≠ [] :=
    dumpLines_ne_nil (by decide)
  have hents : ∀ e ∈ sortEntries (stampMeta ("NOW".toList) cexPattern.metadata),
      WFKey e.1 ∧ WFVal e.2 := by decide
  have hmet : yaml_load (joinNl (dumpLines (stampMeta ("NOW".toList) cexPattern.metadata))) =
      sortEntries (stampMeta ("NOW".toList) cexPattern.metadata) := by
    rw [yaml_load, splitOnChar_joinNl (fun l hl => (hfm l hl).1) hfmne, dumpLines,
      loadLines_flatMap hents]
  rw [hmet]
  decide

/-- C7 amended: every serialize call stamps created and updated to the
current time and version to 1.0.0 and wraps the block-style YAML dump of
the stamped metadata in two --- lines; the emitted keys however are in
sorted order — the yaml.dump default — not in the mapping's own
insertion order. -/
theorem C7_frontmatter_stamped_sorted (now : Str) (p : Pattern)
    (hmeta : WFMeta p.metadata) (hnow : WFVal (.s now)) :
    ((format_pattern_markdown now p).1 =
      "---\n".toList ++ (yaml_dump (stampMeta now p.metadata) ++ ("---\n".toList ++
        docBody (docTitle (stampMeta now p.metadata)) p.description p.setup p.usage
          p.notes p.language p.code))) ∧
    ∃ fm body,
      parseDoc ((format_pattern_markdown now p).1) = some (fm, body) ∧
      alookup ("created".toList) (yaml_load fm) = some (.s now) ∧
      alookup ("updated".toList) (yaml_load fm) = some (.s now) ∧
      alookup ("version".toList) (yaml_load fm) = some (.s ("1.0.0".toList)) ∧
      List.Pairwise (fun a b => strLe a b = true) ((yaml_load fm).map Prod.fst) := by
  have hWFm : WFMeta (stampMeta now p.metadata) := WFMeta_stampMeta hmeta hnow
  have hfm := dumpLines_facts hWFm.2
  have hmdne : stampMeta now p.metadata ≠ [] := by
    rw [stampMeta]
    exact dictInsert_ne_nil
  have hfmne : dumpLines (stampMeta now p.metadata) ≠ [] := dumpLines_ne_nil hmdne
  have hents : ∀ e ∈ sortEntries (stampMeta now p.metadata), WFKey e.1 ∧ WFVal e.2 := by
    intro e he
    exact hWFm.2 e ((List.mem_insertionSort _).1 he)
  have hmet : yaml_load (joinNl (dumpLines (stampMeta now p.metadata))) =
      sortEntries (stampMeta now p.metadata) := by
    rw [yaml_load, splitOnChar_joinNl (fun l hl => (hfm l hl).1) hfmne, dumpLines,
      loadLines_flatMap hents]
  have hnds : ((sortEntries (stampMeta now p.metadata)).map Prod.fst).Nodup :=
    ((sortEntries_perm.map Prod.fst).nodup_iff).2 hWFm.1
  have hlook : ∀ k, alookup k (sortEntries (stampMeta now p.metadata)) =
      alookup k (stampMeta now p.metadata) :=
    alookup_perm sortEntries_perm hnds
  refine ⟨format_doc_decomp, joinNl (dumpLines (stampMeta now p.metadata)),
    docBody (docTitle (stampMeta now p.metadata)) p.description p.setup p.usage
      p.notes p.language p.code, ?_, ?_, ?_, ?_, ?_⟩
  · rw [format_doc_decomp]
    exact parseDoc_shape hfm hfmne
  · rw [hmet, hlook ("created".toList), stampMeta, alookup_dictInsert_ne (by decide),
      alookup_dictInsert_ne (by decide), alookup_dictInsert_self]
  · rw [hmet, hlook ("updated".toList), stampMeta, alookup_dictInsert_ne (by decide),
      alookup_dictInsert_self]
  · rw [hmet, hlook ("version".toList), stampMeta, alookup_dictInsert_self]
  · rw [hmet]
    exact List.pairwise_map.2 (sortEntries_sorted _)

/-- C7 witness: the amended statement at a concrete record and time. -/
theorem C7_frontmatter_stamped_sorted_witness :
    WFMeta cexPattern.metadata ∧
    ∃ fm body,
      parseDoc ((format_pattern_markdown ("NOW".toList) cexPattern).1) = some (fm, body) ∧
      alookup ("created".toList) (yaml_load fm) = some (.s ("NOW".toList)) ∧
      alookup ("updated".toList) (yaml_load fm) = some (.s ("NOW".toList)) ∧
      alookup ("version".toList) (yaml_load fm) = some (.s ("1.0.0".toList)) ∧
      List.Pairwise (fun a b => strLe a b = true) ((yaml_load fm).map Prod.fst) :=
  ⟨by decide,
   (C7_frontmatter_stamped_sorted ("NOW".toList) cexPattern (by decide) (by decide)).2⟩

set_option maxRecDepth 10000 in
/-- C1 counterexample: for a concrete well-formed record with all four
required keys, the parsed description is not the original description
(it swallows the Setup, Usage and Notes sections up to the Code marker)
and the parsed notes are not the original notes (they swallow the fenced
code block, running to the end of the text). -/
theorem C1_counterexample :
    (parse_pattern_file ((format_pattern_markdown ("NOW".toList) cexPattern).1)).map
        Pattern.description ≠ some cexPattern.description ∧
    (parse_pattern_file ((format_pattern_markdown ("NOW".toList) cexPattern).1)).map
        Pattern.notes ≠ some cexPattern.notes := by
  decide

/-- C1 amended: under well-formedness of the record (plain-scalar
metadata, marker-free and backtick-free sections, fence-free code,
word-character language tag, stripped setup and usage), parsing the
serialized document reproduces the code, setup and usage fields and
every caller-supplied metadata key with its original value apart from
the codec-injected created, updated and version stamps; the description
and notes fields are not reproduced (see the counterexample). -/
theorem C1_roundtrip (now : Str) (p : Pattern)
    (hmeta : WFMeta p.metadata) (hnow : WFVal (.s now))
    (hTh : '#' ∉ docTitle (stampMeta now p.metadata))
    (hTb : bq ∉ docTitle (stampMeta now p.metadata))
    (hDh : '#' ∉ p.description) (hDb : bq ∉ p.description)
    (hSh : '#' ∉ p.setup) (hSb : bq ∉ p.setup) (hSs : strip p.setup = p.setup)
    (hUh : '#' ∉ p.usage) (hUb : bq ∉ p.usage) (hUs : strip p.usage = p.usage)
    (hNb : bq ∉ p.notes)
    (hLw : ∀ c ∈ p.language, isWordChar c = true)
    (hCf : ¬ ("```".toList) <:+: p.code) :
    (parse_pattern_file ((format_pattern_markdown now p).1)).map Pattern.code =
      some p.code ∧
    (parse_pattern_file ((format_pattern_markdown now p).1)).map Pattern.setup =
      some p.setup ∧
    (parse_pattern_file ((format_pattern_markdown now p).1)).map Pattern.usage =
      some p.usage ∧
    ∀ k v, (k, v) ∈ p.metadata → k ≠ "created".toList → k ≠ "updated".toList →
      k ≠ "version".toList →
      (parse_pattern_file ((format_pattern_markdown now p).1)).map
        (fun r => alookup k r.metadata) = some (some v) := by
  obtain ⟨h1, h2, h3, h4⟩ :=
    parse_of_format hmeta hnow hTh hTb hDh hDb hSh hSb hSs hUh hUb hUs hNb hLw hCf
  refine ⟨h1, h2, h3, ?_⟩
  intro k v hm hk1 hk2 hk3
  rcases hp : parse_pattern_file ((format_pattern_markdown now p).1) with _ | r
  · rw [hp] at h4
    cases h4
  · rw [hp] at h4
    rw [Option.map_some'] at h4 ⊢
    rw [Option.some_inj] at h4
    refine congrArg some ?_
    show alookup k r.metadata = some v
    rw [h4]
    have hnds : ((sortEntries (stampMeta now p.metadata)).map Prod.fst).Nodup :=
      ((sortEntries_perm.map Prod.fst).nodup_iff).2 (WFMeta_stampMeta hmeta hnow).1
    rw [alookup_perm sortEntries_perm hnds k, stampMeta,
      alookup_dictInsert_ne hk3, alookup_dictInsert_ne hk2, alookup_dictInsert_ne hk1]
    exact alookup_eq_some_of_mem hmeta.1 hm

/-- C1 witness: the amended round trip at a concrete record, with the
task key read back unchanged. -/
theorem C1_roundtrip_witness :
    (parse_pattern_file ((format_pattern_markdown ("NOW".toList) cexPattern).1)).map
        Pattern.code = some cexPattern.code ∧
    (parse_pattern_file ((format_pattern_markdown ("NOW".toList) cexPattern).1)).map
        (fun r => alookup ("task".toList) r.metadata) =
      some (some (.s ("make widget".toList))) := by
  have h := C1_roundtrip ("NOW".toList) cexPattern (by decide) (by decide) (by decide)
    (by decide) (by decide) (by decide) (by decide) (by decide) (by decide) (by decide)
    (by decide) (by decide) (by decide) (by decide)
    (findSub?_eq_none_iff.1 (by decide))
  exact ⟨h.1, h.2.2.2 ("task".toList) (.s ("make widget".toList)) (by decide) (by decide)
    (by decide) (by decide)⟩

end Spec2
